import Mathlib

/-!
Verification of the lezer highlight core (`src/highlight.ts`) against its
natural-language specification.  The TypeScript source is shallowly embedded:
pure computations become Lean functions, the stateful span builder becomes
explicit state passing, and the process-wide interning of modified tags is
reflected by identifying an interned tag with its key (base tag id, sorted
modifier id list) — `Modifier.get` guarantees at most one tag object per key.
-/

/-! ## Tag lattice -/

/-- Identity of an interned tag: the id of its unmodified base tag together
with the ids of the modifiers applied to it (kept sorted ascending, as
`defineModifier` sorts by `a.id - b.id`).  An unmodified tag has `mods = []`
and `baseId` is its own id.  Because `Modifier.get` interns modified tags
(at most one tag object exists per `(base, mods)` pair) and unmodified tags
are determined by their unique id, equality of keys is exactly object
identity of tags in the source. -/
structure TagKey where
  baseId : Nat
  mods : List Nat
deriving DecidableEq, Repr

/-- Stable insertion of `m` into a list: placed after every element `≤ m`.
Used to realize JavaScript's stable `Array.prototype.sort` on numbers. -/
def insAsc (m : Nat) : List Nat → List Nat
  | [] => [m]
  | x :: rest => if x ≤ m then x :: insAsc m rest else m :: x :: rest

/-- The sort applied in `defineModifier`: `tag.modified.concat(mod).sort((a, b) => a.id - b.id)`
sorts the modifier ids ascending (stable sort; on numbers any correct sort
gives the same list). -/
def sortMods (l : List Nat) : List Nat := l.foldl (fun acc x => insAsc x acc) []

/-- The function returned by `Tag.defineModifier` for a modifier with id `m`,
acting on tag keys: if the modifier is already present, return the tag
unchanged; otherwise intern the tag with the same base and the sorted
extended modifier list (`Modifier.get(tag.base || tag, tag.modified.concat(mod).sort(...))`). -/
def applyMod (m : Nat) (t : TagKey) : TagKey :=
  if m ∈ t.mods then t else ⟨t.baseId, sortMods (t.mods ++ [m])⟩

/-- The subsets accumulated by `powerSet` before sorting: starts from `[[]]`
and for each element doubles the collection, appending the element to each
existing subset (`for (i) for (j < e) sets.push(sets[j].concat(array[i]))`). -/
def powerSetRaw (l : List Nat) : List (List Nat) :=
  l.foldl (fun sets x => sets ++ sets.map (fun s => s ++ [x])) [[]]

/-- Stable insertion of `s` into a list of subsets ordered by length
descending: placed after every element of length `≥ s.length`. -/
def insDesc (s : List Nat) : List (List Nat) → List (List Nat)
  | [] => [s]
  | t :: rest => if t.length < s.length then s :: t :: rest else t :: insDesc s rest

/-- The `powerSet` function from the source: all subsets, sorted by length descending
(`sets.sort((a, b) => b.length - a.length)`; JavaScript's sort is stable,
which the left-to-right stable insertion realizes). -/
def powerSet (l : List Nat) : List (List Nat) :=
  (powerSetRaw l).foldl (fun acc s => insDesc s acc) []

/-- The `set` (specificity chain) of the modified tag built by
`Modifier.get(base, mods)`: for every `parent` of `base.set` that is itself
unmodified, and every `config` of `powerSet(mods)` (in that nesting order),
the chain holds `Modifier.get(parent, config)`, whose key is
`(parent.baseId, config)` (`Modifier.get` returns `base` itself when the
modifier list is empty, and the interned tag otherwise). -/
def modifiedSet (baseSet : List TagKey) (mods : List Nat) : List TagKey :=
  baseSet.flatMap (fun parent =>
    if parent.mods = [] then (powerSet mods).map (fun config => ⟨parent.baseId, config⟩)
    else [])

/-- A full tag record as produced by `Tag.define` / `Modifier.get`: its id,
debug name, `base` (the unmodified root's id, when modified), modifier ids,
and the specificity chain `set` as a list of tag keys. -/
structure FTag where
  tId : Nat
  name : String
  base : Option Nat
  mods : List Nat
  tSet : List TagKey
deriving DecidableEq, Repr

/-- Model of `Tag.define(name?, parent?)` with an explicit fresh id for the
`nextTagID++` counter: rejects a modified parent
(`if (parent?.base) throw new Error("Can not derive from a modified tag")`),
otherwise returns a fresh unmodified tag whose `set` is itself followed by
the parent's `set`. -/
def defineTag (freshId : Nat) (nm : Option String) (parent : Option FTag) : Except String FTag :=
  match parent with
  | some p =>
    if p.base ≠ none then .error "Can not derive from a modified tag"
    else .ok ⟨freshId, nm.getD "?", none, [], ⟨freshId, []⟩ :: p.tSet⟩
  | none => .ok ⟨freshId, nm.getD "?", none, [], [⟨freshId, []⟩]⟩

/-- String `a` occurs inside string `b` (contiguously). -/
def strHas (a b : String) : Prop := a.data <:+: b.data

instance (a b : String) : Decidable (strHas a b) :=
  inferInstanceAs (Decidable (_ <:+: _))
lemma insAsc_perm (m : Nat) (l : List Nat) : (insAsc m l).Perm (m :: l) := by
  induction l with
  | nil => rfl
  | cons x rest ih =>
    unfold insAsc
    split
    · exact (ih.cons x).trans (List.Perm.swap m x rest)
    · rfl

lemma sortMods_perm (l : List Nat) : (sortMods l).Perm l := by
  suffices h : ∀ (l acc : List Nat), (l.foldl (fun acc x => insAsc x acc) acc).Perm (acc ++ l) by
    simpa using h l []
  intro l
  induction l with
  | nil => simp [List.Perm.refl]
  | cons x rest ih =>
    intro acc
    refine (ih (insAsc x acc)).trans ?_
    refine (((insAsc_perm x acc).append_right rest).trans ?_)
    simpa using (@List.perm_middle _ x acc rest).symm

lemma mem_sortMods {m : Nat} {l : List Nat} : m ∈ sortMods l ↔ m ∈ l :=
  (sortMods_perm l).mem_iff

lemma insAsc_sorted {m : Nat} {l : List Nat} (h : List.Sorted (· ≤ ·) l) :
    List.Sorted (· ≤ ·) (insAsc m l) := by
  induction l with
  | nil => simp [insAsc]
  | cons x rest ih =>
    rcases List.sorted_cons.mp h with ⟨hx, hrest⟩
    unfold insAsc
    split
    · refine List.sorted_cons.mpr ⟨?_, ih hrest⟩
      intro y hy
      rcases List.mem_cons.mp ((insAsc_perm m rest).mem_iff.mp hy) with h1 | h1
      · omega
      · exact hx y h1
    · refine List.sorted_cons.mpr ⟨?_, h⟩
      intro y hy
      rcases List.mem_cons.mp hy with h1 | h1
      · omega
      · have := hx y h1; omega

lemma sortMods_sorted (l : List Nat) : List.Sorted (· ≤ ·) (sortMods l) := by
  suffices h : ∀ (l acc : List Nat), List.Sorted (· ≤ ·) acc →
      List.Sorted (· ≤ ·) (l.foldl (fun acc x => insAsc x acc) acc) by
    exact h l [] (by simp)
  intro l
  induction l with
  | nil => exact fun acc h => h
  | cons x rest ih => exact fun acc h => ih _ (insAsc_sorted h)

lemma sortMods_congr {l1 l2 : List Nat} (h : l1.Perm l2) : sortMods l1 = sortMods l2 :=
  List.eq_of_perm_of_sorted ((sortMods_perm l1).trans (h.trans (sortMods_perm l2).symm))
    (sortMods_sorted l1) (sortMods_sorted l2)

/-- C3: applying a modifier twice yields the identical tag as applying it
once, and two modifiers applied in either order intern to the identical tag. -/
theorem applyMod_idem_comm (m m1 m2 : Nat) (t : TagKey) :
    applyMod m (applyMod m t) = applyMod m t ∧
    applyMod m1 (applyMod m2 t) = applyMod m2 (applyMod m1 t) := by
  constructor
  · unfold applyMod
    by_cases h : m ∈ t.mods
    · simp [h]
    · simp only [h, if_false]
      have : m ∈ sortMods (t.mods ++ [m]) := mem_sortMods.mpr (by simp)
      simp [this]
  · unfold applyMod
    by_cases h1 : m1 ∈ t.mods <;> by_cases h2 : m2 ∈ t.mods
    · simp [h1, h2]
    · simp only [h1, h2, if_true, if_false]
      have : m1 ∈ sortMods (t.mods ++ [m2]) := mem_sortMods.mpr (by simp [h1])
      simp [this]
    · simp only [h1, h2, if_true, if_false]
      have : m2 ∈ sortMods (t.mods ++ [m1]) := mem_sortMods.mpr (by simp [h2])
      simp [this]
    · simp only [h1, h2, if_false]
      by_cases he : m1 = m2
      · subst he
        have : m1 ∈ sortMods (t.mods ++ [m1]) := mem_sortMods.mpr (by simp)
        simp [this]
      · have hm1 : m1 ∉ sortMods (t.mods ++ [m2]) := by
          rw [mem_sortMods]; simp [h1, he]
        have hm2 : m2 ∉ sortMods (t.mods ++ [m1]) := by
          rw [mem_sortMods]
          simp only [List.mem_append, List.mem_singleton]
          rintro (h | h)
          · exact h2 h
          · exact he h.symm
        simp only [hm1, hm2, if_false]
        have hp : (sortMods (t.mods ++ [m2]) ++ [m1]).Perm (sortMods (t.mods ++ [m1]) ++ [m2]) := by
          refine ((sortMods_perm _).append_right _).trans (.trans ?_ ((sortMods_perm _).append_right _).symm)
          simp only [List.append_assoc]
          exact List.Perm.append_left _ List.perm_append_comm
        simp [sortMods_congr hp]
lemma powerSetRaw_concat (l : List Nat) (x : Nat) :
    powerSetRaw (l ++ [x]) = powerSetRaw l ++ (powerSetRaw l).map (fun s => s ++ [x]) := by
  simp [powerSetRaw, List.foldl_append]

lemma mem_powerSetRaw' (l : List Nat) : ∀ s, s ∈ powerSetRaw l ↔ s.Sublist l := by
  induction l using List.reverseRecOn with
  | nil => simp [powerSetRaw, List.sublist_nil]
  | append_singleton l x ih =>
    intro s
    rw [powerSetRaw_concat]
    constructor
    · intro h
      rcases List.mem_append.mp h with h1 | h1
      · exact ((ih s).mp h1).trans (List.sublist_append_left l [x])
      · rcases List.mem_map.mp h1 with ⟨s', hs', rfl⟩
        exact ((ih s').mp hs').append (List.Sublist.refl [x])
    · intro h
      rw [List.sublist_append_iff] at h
      obtain ⟨a, b, rfl, ha, hb⟩ := h
      rcases List.sublist_singleton.mp hb with h1 | h1
      · subst h1
        exact List.mem_append.mpr (.inl ((ih _).mpr (by simpa using ha)))
      · subst h1
        exact List.mem_append.mpr (.inr (List.mem_map.mpr ⟨a, (ih a).mpr ha, rfl⟩))

lemma mem_powerSetRaw {s l : List Nat} : s ∈ powerSetRaw l ↔ s.Sublist l :=
  mem_powerSetRaw' l s

lemma length_powerSetRaw (l : List Nat) : (powerSetRaw l).length = 2 ^ l.length := by
  induction l using List.reverseRecOn with
  | nil => simp [powerSetRaw]
  | append_singleton l x ih =>
    rw [powerSetRaw_concat]
    simp [ih]
    ring

lemma insDesc_perm (s : List Nat) (l : List (List Nat)) : (insDesc s l).Perm (s :: l) := by
  induction l with
  | nil => rfl
  | cons x rest ih =>
    unfold insDesc
    split
    · rfl
    · exact (ih.cons x).trans (List.Perm.swap s x rest)

lemma powerSet_perm (l : List Nat) : (powerSet l).Perm (powerSetRaw l) := by
  suffices h : ∀ (m acc : List (List Nat)),
      (m.foldl (fun acc s => insDesc s acc) acc).Perm (acc ++ m) by
    simpa using h (powerSetRaw l) []
  intro m
  induction m with
  | nil => simp [List.Perm.refl]
  | cons x rest ih =>
    intro acc
    refine (ih (insDesc x acc)).trans ?_
    refine ((insDesc_perm x acc).append_right rest).trans ?_
    simpa using (@List.perm_middle _ x acc rest).symm

lemma mem_powerSet {s l : List Nat} : s ∈ powerSet l ↔ s.Sublist l :=
  (powerSet_perm l).mem_iff.trans mem_powerSetRaw

lemma length_powerSet (l : List Nat) : (powerSet l).length = 2 ^ l.length :=
  ((powerSet_perm l).length_eq).trans (length_powerSetRaw l)

lemma insDesc_sorted {s : List Nat} {l : List (List Nat)}
    (h : l.Pairwise (fun a b => b.length ≤ a.length)) :
    (insDesc s l).Pairwise (fun a b => b.length ≤ a.length) := by
  induction l with
  | nil => simp [insDesc]
  | cons x rest ih =>
    rcases List.pairwise_cons.mp h with ⟨hx, hrest⟩
    unfold insDesc
    split
    next h2 =>
      refine List.pairwise_cons.mpr ⟨?_, h⟩
      intro y hy
      rcases List.mem_cons.mp hy with h1 | h1
      · subst h1; omega
      · have := hx y h1; omega
    next h2 =>
      refine List.pairwise_cons.mpr ⟨?_, ih hrest⟩
      intro y hy
      rcases List.mem_cons.mp ((insDesc_perm s rest).mem_iff.mp hy) with h1 | h1
      · subst h1; omega
      · exact hx y h1

lemma powerSet_pairwise (l : List Nat) :
    (powerSet l).Pairwise (fun a b => b.length ≤ a.length) := by
  suffices h : ∀ (m acc : List (List Nat)), acc.Pairwise (fun a b => b.length ≤ a.length) →
      (m.foldl (fun acc s => insDesc s acc) acc).Pairwise (fun a b => b.length ≤ a.length) by
    exact h (powerSetRaw l) [] (by simp)
  intro m
  induction m with
  | nil => exact fun acc h => h
  | cons x rest ih => exact fun acc h => ih _ (insDesc_sorted h)

lemma powerSet_head (l : List Nat) : (powerSet l).head? = some l := by
  have hne : powerSet l ≠ [] := by
    have h1 := length_powerSet l
    have h2 : 0 < 2 ^ l.length := pow_pos (by norm_num) _
    intro h
    rw [h] at h1
    simp at h1
    omega
  rcases he : powerSet l with _ | ⟨h, t⟩
  · exact absurd he hne
  · have hmem : l ∈ powerSet l := mem_powerSet.mpr (List.Sublist.refl l)
    have hsub : h.Sublist l := mem_powerSet.mp (by rw [he]; exact List.mem_cons_self h t)
    have hlen : l.length ≤ h.length := by
      rw [he] at hmem
      rcases List.mem_cons.mp hmem with h1 | h1
      · subst h1; omega
      · have hp := powerSet_pairwise l
        rw [he] at hp
        exact (List.pairwise_cons.mp hp).1 l h1
    have : h = l := hsub.eq_of_length (le_antisymm hsub.length_le hlen)
    simp [this]
lemma mem_modifiedSet {chain : List TagKey} {mods : List Nat} {tk : TagKey}
    (hch : ∀ p ∈ chain, p.mods = []) :
    tk ∈ modifiedSet chain mods ↔
      ∃ p ∈ chain, ∃ ms, ms.Sublist mods ∧ tk = ⟨p.baseId, ms⟩ := by
  unfold modifiedSet
  rw [List.mem_flatMap]
  constructor
  · rintro ⟨p, hp, htk⟩
    rw [hch p hp] at htk
    simp only [if_true] at htk
    rcases List.mem_map.mp htk with ⟨config, hc, rfl⟩
    exact ⟨p, hp, config, mem_powerSet.mp hc, rfl⟩
  · rintro ⟨p, hp, ms, hms, rfl⟩
    refine ⟨p, hp, ?_⟩
    rw [hch p hp]
    simp only [if_true]
    exact List.mem_map.mpr ⟨ms, mem_powerSet.mpr hms, rfl⟩

lemma modifiedSet_pairwise (chain : List TagKey) (mods : List Nat)
    (hch : ∀ p ∈ chain, p.mods = []) (hnd : (chain.map (·.baseId)).Nodup) :
    (modifiedSet chain mods).Pairwise
      (fun a b => a.baseId ≠ b.baseId ∨ b.mods.length ≤ a.mods.length) := by
  induction chain with
  | nil => simp [modifiedSet]
  | cons p rest ih =>
    have hstep : modifiedSet (p :: rest) mods =
        (powerSet mods).map (fun config => TagKey.mk p.baseId config) ++ modifiedSet rest mods := by
      unfold modifiedSet
      rw [List.flatMap_cons, hch p (List.mem_cons_self p rest)]
      simp
    rw [hstep, List.pairwise_append]
    refine ⟨?_, ?_, ?_⟩
    · refine List.Pairwise.map _ ?_ (powerSet_pairwise mods)
      intro a b hab
      exact Or.inr hab
    · exact ih (fun q hq => hch q (List.mem_cons_of_mem p hq)) (List.nodup_cons.mp (by simpa using hnd)).2
    · intro a ha b hb
      rcases List.mem_map.mp ha with ⟨config, _, rfl⟩
      have hb' := (mem_modifiedSet (fun q hq => hch q (List.mem_cons_of_mem p hq))).mp hb
      rcases hb' with ⟨q, hq, ms, _, rfl⟩
      left
      intro hcontra
      have h1 : p.baseId ∉ rest.map (·.baseId) := (List.nodup_cons.mp (by simpa using hnd)).1
      exact h1 (by simpa using List.mem_map.mpr ⟨q, hq, hcontra.symm⟩)

/-- C1 fails on the code: the specificity chain of a modified tag is NOT
ordered primarily by decreasing modifier-subset size.  For a base tag
(id 0) with one unmodified parent (id 1) and a single modifier (id 5),
`Modifier.get` produces the chain
`[5(base), base, 5(parent), parent]` — the unmodified base tag (0 modifiers)
precedes the modified `5(parent)` (1 modifier), so the modifier counts along
the chain are `[1, 0, 1, 0]`, not non-increasing. -/
theorem c1_counterexample :
    modifiedSet [⟨0, []⟩, ⟨1, []⟩] [5] = [⟨0, [5]⟩, ⟨0, []⟩, ⟨1, [5]⟩, ⟨1, []⟩] ∧
    ¬ (modifiedSet [⟨0, []⟩, ⟨1, []⟩] [5]).Pairwise
        (fun a b => b.mods.length ≤ a.mods.length) := by
  constructor
  · decide
  · decide

/-- C1 (amended): the chain of `Modifier.get(base, mods)` starts with the
modified tag itself and contains `Ms(anc)` for every subset `Ms ⊆ mods` and
every unmodified ancestor `anc ∈ base.set`; it is ordered primarily by base
specificity (the ancestor's position in `base.set`) and secondarily by
decreasing `|Ms|`: ancestors' blocks are contiguous (`2 ^ |mods|` entries per
ancestor, in `base.set` order) and within a block the subset sizes are
non-increasing (the power set is sorted by length descending). -/
theorem modifiedSet_spec (bk : Nat) (rest : List TagKey) (mods : List Nat)
    (hm : mods ≠ []) (hrest : ∀ p ∈ rest, p.mods = [])
    (hnd : ((TagKey.mk bk [] :: rest).map (·.baseId)).Nodup) :
    (modifiedSet (TagKey.mk bk [] :: rest) mods).head? = some ⟨bk, mods⟩ ∧
    (∀ tk, tk ∈ modifiedSet (TagKey.mk bk [] :: rest) mods ↔
      ∃ p ∈ (TagKey.mk bk [] :: rest), ∃ ms, ms.Sublist mods ∧ tk = ⟨p.baseId, ms⟩) ∧
    (modifiedSet (TagKey.mk bk [] :: rest) mods).map (·.baseId) =
      (TagKey.mk bk [] :: rest).flatMap (fun p => List.replicate (2 ^ mods.length) p.baseId) ∧
    (powerSet mods).Pairwise (fun s t => t.length ≤ s.length) ∧
    (modifiedSet (TagKey.mk bk [] :: rest) mods).Pairwise
      (fun a b => a.baseId ≠ b.baseId ∨ b.mods.length ≤ a.mods.length) := by
  have hch : ∀ p ∈ (TagKey.mk bk [] :: rest), p.mods = [] := by
    intro p hp
    rcases List.mem_cons.mp hp with h | h
    · subst h; rfl
    · exact hrest p h
  refine ⟨?_, fun tk => mem_modifiedSet hch, ?_, powerSet_pairwise mods, modifiedSet_pairwise _ mods hch hnd⟩
  · have hstep : modifiedSet (TagKey.mk bk [] :: rest) mods =
        (powerSet mods).map (fun config => TagKey.mk bk config) ++ modifiedSet rest mods := by
      unfold modifiedSet
      rw [List.flatMap_cons]
      simp
    rw [hstep]
    have hne : powerSet mods ≠ [] := by
      intro h
      have := powerSet_head mods
      rw [h] at this
      simp at this
    rcases he : powerSet mods with _ | ⟨h, t⟩
    · exact absurd he hne
    · have := powerSet_head mods
      rw [he] at this
      simp at this
      subst this
      simp
  · suffices h : ∀ (chain : List TagKey), (∀ p ∈ chain, p.mods = []) →
        (modifiedSet chain mods).map (·.baseId) =
          chain.flatMap (fun p => List.replicate (2 ^ mods.length) p.baseId) from h _ hch
    intro chain h
    induction chain with
    | nil => simp [modifiedSet]
    | cons p rest ih =>
      have hstep : modifiedSet (p :: rest) mods =
          (powerSet mods).map (fun config => TagKey.mk p.baseId config) ++ modifiedSet rest mods := by
        unfold modifiedSet
        rw [List.flatMap_cons, h p (List.mem_cons_self p rest)]
        simp
      rw [hstep, List.map_append, List.flatMap_cons,
        ih (fun q hq => h q (List.mem_cons_of_mem p hq))]
      congr 1
      rw [List.map_map]
      have : ((·.baseId) ∘ fun config => TagKey.mk p.baseId config) = fun _ => p.baseId := rfl
      rw [this, List.map_const', length_powerSet]
/-- Witness for C1 (amended) at base id 0 with parent id 1 and modifier 5. -/
theorem modifiedSet_spec_witness :
    (([5] : List Nat) ≠ [] ∧ (∀ p ∈ [TagKey.mk 1 []], p.mods = []) ∧
      (([TagKey.mk 0 [], TagKey.mk 1 []]).map (·.baseId)).Nodup) ∧
    (modifiedSet (TagKey.mk 0 [] :: [TagKey.mk 1 []]) [5]).head? = some ⟨0, [5]⟩ :=
  ⟨⟨by decide, by decide, by decide⟩,
    (modifiedSet_spec 0 [⟨1, []⟩] [5] (by decide) (by decide) (by decide)).1⟩

/-- C9 fails on the code in its error-reporting half: the thrown error is the
fixed string `"Can not derive from a modified tag"`; deriving from the
modified parent named `"special"` under the new name `"foo"` mentions
neither name. -/
theorem c9_counterexample :
    defineTag 9 (some "foo") (some ⟨7, "special", some 3, [5], [⟨3, [5]⟩, ⟨3, []⟩]⟩) =
      .error "Can not derive from a modified tag" ∧
    ¬ strHas "special" "Can not derive from a modified tag" ∧
    ¬ strHas "foo" "Can not derive from a modified tag" :=
  ⟨rfl, by decide, by decide⟩

/-- C9 (amended): `Tag.define` fails exactly when the given parent is
modified, with a fixed error message that does not include either tag's
name; for an unmodified parent (or none) it succeeds and returns a fresh
unmodified tag whose chain is itself followed by the parent's chain. -/
theorem defineTag_spec (freshId : Nat) (nm : Option String) (p : FTag) :
    (p.base ≠ none → defineTag freshId nm (some p) =
      .error "Can not derive from a modified tag") ∧
    (p.base = none → defineTag freshId nm (some p) =
      .ok ⟨freshId, nm.getD "?", none, [], ⟨freshId, []⟩ :: p.tSet⟩) ∧
    defineTag freshId nm none = .ok ⟨freshId, nm.getD "?", none, [], [⟨freshId, []⟩]⟩ := by
  unfold defineTag
  refine ⟨fun h => by simp [h], fun h => by simp [h], rfl⟩

/-- Witness for C9 (amended): a modified parent is rejected. -/
theorem defineTag_spec_witness :
    ((FTag.mk 7 "special" (some 3) [5] [⟨3, [5]⟩, ⟨3, []⟩]).base ≠ none) ∧
    defineTag 9 (some "foo") (some ⟨7, "special", some 3, [5], [⟨3, [5]⟩, ⟨3, []⟩]⟩) =
      .error "Can not derive from a modified tag" :=
  ⟨by decide, (defineTag_spec 9 (some "foo") _).1 (by decide)⟩

/-! ## Selector rules -/

/-- Match mode of a compiled rule: `Opaque` (`Name!`), `Inherit`
(`Name/...`) or `Normal`. -/
inductive Mode where
  | opq
  | inh
  | norm
deriving DecidableEq, Repr

/-- A tag as consumed by highlighters: its identity together with its
specificity chain `set`. -/
structure STag where
  key : TagKey
  chain : List TagKey
deriving DecidableEq, Repr

/-- Compiled form of one selector part (`class Rule`): the tags to apply,
the mode, and the context path (`null` when the part has a single piece).
The `next` chain is represented as a `List RuleData`. -/
structure RuleData where
  rTags : List STag
  mode : Mode
  context : Option (List String)
deriving DecidableEq, Repr

/-- Model of `Rule.depth`: the context length, `0` when there is no context. -/
def RuleData.depth (r : RuleData) : Nat :=
  match r.context with
  | none => 0
  | some c => c.length

/-- Model of `Rule.empty`: `new Rule([], Mode.Normal, null)`. -/
def emptyRule : RuleData := ⟨[], .norm, none⟩

/-- Model of `Rule.sort(other)`: insert `this` into the chain `other`, before the
first rule of strictly smaller depth (so after every rule of depth `≥`
its own). -/
def ruleSort (r : RuleData) : List RuleData → List RuleData
  | [] => [r]
  | o :: rest => if o.depth < r.depth then r :: o :: rest else o :: ruleSort r rest

/-- The chain `styleTags` builds for one target name when the listed rules
are inserted in declaration order (`byName[inner] = rule.sort(byName[inner])`). -/
def styleTagsChain (rs : List RuleData) : List RuleData :=
  rs.foldl (fun chain r => ruleSort r chain) []

lemma ruleSort_perm (r : RuleData) (l : List RuleData) : (ruleSort r l).Perm (r :: l) := by
  induction l with
  | nil => rfl
  | cons o rest ih =>
    unfold ruleSort
    split
    · rfl
    · exact (ih.cons o).trans (List.Perm.swap r o rest)

lemma ruleSort_sorted {r : RuleData} {l : List RuleData}
    (h : l.Pairwise (fun a b => b.depth ≤ a.depth)) :
    (ruleSort r l).Pairwise (fun a b => b.depth ≤ a.depth) := by
  induction l with
  | nil => simp [ruleSort]
  | cons o rest ih =>
    rcases List.pairwise_cons.mp h with ⟨ho, hrest⟩
    unfold ruleSort
    split
    next h2 =>
      refine List.pairwise_cons.mpr ⟨?_, h⟩
      intro y hy
      rcases List.mem_cons.mp hy with h1 | h1
      · subst h1; omega
      · have := ho y h1; omega
    next h2 =>
      refine List.pairwise_cons.mpr ⟨?_, ih hrest⟩
      intro y hy
      rcases List.mem_cons.mp ((ruleSort_perm r rest).mem_iff.mp hy) with h1 | h1
      · subst h1; omega
      · exact ho y h1

lemma ruleSort_filter {r : RuleData} {l : List RuleData} (d : Nat)
    (h : l.Pairwise (fun a b => b.depth ≤ a.depth)) :
    (ruleSort r l).filter (fun x => x.depth == d) =
      if r.depth == d then l.filter (fun x => x.depth == d) ++ [r]
      else l.filter (fun x => x.depth == d) := by
  induction l with
  | nil =>
    by_cases hd : r.depth = d <;> simp [ruleSort, hd]
  | cons o rest ih =>
    rcases List.pairwise_cons.mp h with ⟨ho, hrest⟩
    unfold ruleSort
    split
    next h2 =>
      have hrestnil : (o :: rest).filter (fun x => x.depth == d) = [] ∨ r.depth ≠ d := by
        by_cases hd : r.depth = d
        · left
          rw [List.filter_eq_nil_iff]
          intro x hx
          rcases List.mem_cons.mp hx with h1 | h1
          · subst h1; simp; omega
          · have := ho x h1; simp; omega
        · right; exact hd
      by_cases hd : r.depth = d
      · rcases hrestnil with h3 | h3
        · simp only [hd, beq_self_eq_true, if_true, h3]
          rw [List.filter_cons_of_pos (by simp [hd])]
          simp [h3]
        · exact absurd hd h3
      · rw [List.filter_cons_of_neg (by simp [hd])]
        simp [hd]
    next h2 =>
      by_cases hdo : o.depth = d
      · rw [List.filter_cons_of_pos (by simp [hdo]), List.filter_cons_of_pos (by simp [hdo]),
          ih hrest]
        by_cases hd : r.depth = d <;> simp [hd]
      · rw [List.filter_cons_of_neg (by simp [hdo]), List.filter_cons_of_neg (by simp [hdo]),
          ih hrest]

/-- C2 fails on the code in its tie-breaking half: inserting two distinct
rules of equal depth (no context) in order leaves the FIRST-inserted rule
first in the chain — `Rule.sort` places a new rule after every existing rule
of depth `≥` its own, so later declarations sort later, not earlier. -/
theorem c2_counterexample :
    styleTagsChain [⟨[], .norm, none⟩, ⟨[], .inh, none⟩] =
      [⟨[], .norm, none⟩, ⟨[], .inh, none⟩] ∧
    (⟨[], .norm, none⟩ : RuleData) ≠ ⟨[], .inh, none⟩ ∧
    (⟨[], .norm, none⟩ : RuleData).depth = (⟨[], .inh, none⟩ : RuleData).depth :=
  ⟨by decide, by decide, by decide⟩

/-- C2 (amended): the chain built for a shared target name holds exactly the
inserted rules, ordered by context depth descending; among rules of equal
context depth the EARLIER-inserted rule comes first (insertion order is
preserved within each depth). -/
theorem styleTagsChain_spec (rs : List RuleData) :
    (styleTagsChain rs).Perm rs ∧
    (styleTagsChain rs).Pairwise (fun a b => b.depth ≤ a.depth) ∧
    ∀ d, (styleTagsChain rs).filter (fun r => r.depth == d) =
      rs.filter (fun r => r.depth == d) := by
  suffices h : ∀ (rs acc : List RuleData), acc.Pairwise (fun a b => b.depth ≤ a.depth) →
      (rs.foldl (fun chain r => ruleSort r chain) acc).Perm (acc ++ rs) ∧
      (rs.foldl (fun chain r => ruleSort r chain) acc).Pairwise (fun a b => b.depth ≤ a.depth) ∧
      ∀ d, (rs.foldl (fun chain r => ruleSort r chain) acc).filter (fun r => r.depth == d) =
        acc.filter (fun r => r.depth == d) ++ rs.filter (fun r => r.depth == d) by
    have h2 := h rs [] (by simp)
    simpa [styleTagsChain] using h2
  intro rs
  induction rs with
  | nil => exact fun acc h => ⟨by simp [List.Perm.refl], h, by simp⟩
  | cons r rest ih =>
    intro acc hacc
    simp only [List.foldl_cons]
    obtain ⟨ihp, ihs, ihf⟩ := ih (ruleSort r acc) (ruleSort_sorted hacc)
    refine ⟨?_, ihs, ?_⟩
    · refine ihp.trans ?_
      refine ((ruleSort_perm r acc).append_right rest).trans ?_
      simpa using (@List.perm_middle _ r acc rest).symm
    · intro d
      rw [ihf d, ruleSort_filter d hacc]
      by_cases hd : r.depth = d
      · simp [hd, List.filter_cons]
      · simp [hd, List.filter_cons]
/-! ## Highlighters -/

/-- A node type as seen by the walker: its name, `isTop` flag, and the rule
chain attached through `ruleNodeProp` (empty when `styleTags` assigned no
rule to this name). -/
structure NType where
  name : String
  isTop : Bool
  rules : List RuleData
deriving DecidableEq, Repr

/-- A highlighter: a style function from a tag sequence to a class string
(or nothing), plus an optional scope predicate over top node types. -/
structure HL where
  style : List STag → Option String
  scope : Option (NType → Bool)

/-- The filter `highlighters.filter(h => !h.scope || h.scope(type))`. -/
def scopeFilter (hs : List HL) (ty : NType) : List HL :=
  hs.filter (fun h =>
    match h.scope with
    | none => true
    | some sc => sc ty)

/-- The update `cls = cls ? cls + " " + tagClass : tagClass` on an accumulating
optional class string (`null` and `""` are both falsy). -/
def addOpt (res : Option String) (v : String) : Option String :=
  match res with
  | some r => if r = "" then some v else some (r ++ " " ++ v)
  | none => some v

/-- Model of `highlightTags`: compose the non-falsy results of every highlighter's
style function, space-separated, in highlighter order. -/
def highlightTags (hs : List HL) (tags : List STag) : Option String :=
  hs.foldl (fun res h =>
    match h.style tags with
    | some v => if v = "" then res else addOpt res v
    | none => res) none

/-- The id→class map built by `tagHighlighter` from its tag/class pairs
(`map[tag.id] = style.class`, later writes overwriting earlier ones). -/
def buildMap (pairs : List (List TagKey × String)) : List (TagKey × String) :=
  pairs.flatMap (fun p => p.1.map (fun k => (k, p.2)))

/-- Lookup in the id→class map: the last assignment wins. -/
def lookupMap (mp : List (TagKey × String)) (k : TagKey) : Option String :=
  (mp.reverse.find? (fun e => e.1 == k)).map (·.2)

/-- The inner scan of `tagHighlighter`'s style function over one tag's
specificity chain: the first `sub` whose map entry is truthy (present AND
non-empty) yields its class (`let tagClass = map[sub.id]; if (tagClass) ... break`). -/
def firstClass (mp : List (TagKey × String)) (chain : List TagKey) : Option String :=
  chain.findSome? (fun sub =>
    match lookupMap mp sub with
    | some c => if c = "" then none else some c
    | none => none)

/-- The style function built by `tagHighlighter(tags, options)`: start from
`all` (or nothing); for each tag append the first truthy class found along
its chain. -/
def thStyle (mp : List (TagKey × String)) (allC : Option String) (tags : List STag) :
    Option String :=
  tags.foldl (fun cls t =>
    match firstClass mp t.chain with
    | some c => addOpt cls c
    | none => cls) allC

/-- C5's literal reading, for comparison with `thStyle`: the scan of a
chain stops at the first element PRESENT in the map, even when its class
is the empty string. -/
def thStyleClaim (mp : List (TagKey × String)) (allC : Option String) (tags : List STag) :
    Option String :=
  tags.foldl (fun cls t =>
    match t.chain.findSome? (fun sub => lookupMap mp sub) with
    | some c => addOpt cls c
    | none => cls) allC

/-- Space-joined list of class names. -/
def joinSp : List String → String
  | [] => ""
  | [x] => x
  | x :: y :: rest => x ++ " " ++ joinSp (y :: rest)

/-- C5's procedure with the truthiness fix, in collect-then-join form:
start from `all`, pick per input tag the first chain element carrying a
non-empty class, join everything with spaces, return nothing when no class
was appended and `all` was absent. -/
def thStyleAmended (mp : List (TagKey × String)) (allC : Option String) (tags : List STag) :
    Option String :=
  let picks := tags.filterMap (fun t => firstClass mp t.chain)
  match allC with
  | some a => some (joinSp (a :: picks))
  | none =>
    match picks with
    | [] => none
    | _ :: _ => some (joinSp picks)
/-! ## Tree walker -/

/-- A syntax tree node (`STree`): its type, absolute `from`/`to` positions, children
in order, and optionally a mounted sub-tree (`NodeProp.mounted`) carrying an
optional overlay range list (positions relative to the node start) and the
inner tree (modelled with absolute positions). -/
inductive STree where
  | mk (ty : NType) (lo hi : Nat) (children : List STree)
      (mnt : Option (Option (List (Nat × Nat)) × STree))

def STree.lo : STree → Nat
  | .mk _ lo _ _ _ => lo

def STree.hi : STree → Nat
  | .mk _ _ hi _ _ => hi

def STree.ty : STree → NType
  | .mk ty _ _ _ _ => ty

/-- A styled range passed to the `putStyle` emit callback. -/
structure Span where
  lo : Nat
  hi : Nat
  cls : String
deriving DecidableEq, Repr

/-- The mutable state of `HighlightBuilder`: the start of the currently
accumulating span, its class, and the ranges emitted so far. -/
structure Builder where
  bAt : Nat
  bCls : String
  out : List Span
deriving DecidableEq, Repr

/-- Model of `HighlightBuilder.flush(to)`: emit the open span when non-degenerate
and its class is non-empty. -/
def flushB (b : Builder) (p : Nat) : Builder :=
  if b.bAt < p ∧ b.bCls ≠ "" then { b with out := b.out ++ [⟨b.bAt, p, b.bCls⟩] } else b

/-- Model of `HighlightBuilder.startSpan(at, cls)`: on a class change, flush the open
span, advance `at` (never backwards) and switch the class. -/
def startSpan (b : Builder) (p : Nat) (cls : String) : Builder :=
  if cls ≠ b.bCls then
    let b1 := flushB b p
    let b2 := if b1.bAt < p then { b1 with bAt := p } else b1
    { b2 with bCls := cls }
  else b

/-- Modelled from the spec: `matchContext` of the syntax-tree collaborator
(`@lezer/common`, not part of this repository): the context pieces
`[p1, …, pk]` are satisfied when the node's immediate parents (innermost
first) are named `pk, …, p1`, an empty piece matching any name. -/
def matchCx (anc : List String) (cx : List String) : Bool :=
  decide (cx.length ≤ anc.length) &&
    (cx.reverse.zip anc).all (fun pc => pc.1 == "" || pc.1 == pc.2)

/-- Model of `getStyleTags`: walk the rule chain, skipping rules whose context does
not match the cursor's ancestors. -/
def getStyleTags : List RuleData → List String → Option RuleData
  | [], _ => none
  | r :: rest, anc =>
    match r.context with
    | none => some r
    | some cx => if matchCx anc cx then some r else getStyleTags rest anc

/-- The append `if (base = "") cls else base + " " + cls`: appending a class group to a
(possibly empty) class string, as `if (cls) cls += " "; cls += tagCls` does. -/
def addCls (base cls : String) : String :=
  if base = "" then cls else base ++ " " ++ cls

/-- The class of the span opened at a node: the inherited class, extended by
the composed highlighter classes for the matched rule's tags when truthy. -/
def nodeCls (hs : List HL) (r : RuleData) (inh : String) : String :=
  match highlightTags hs r.rTags with
  | some tc => if tc = "" then inh else addCls inh tc
  | none => inh

/-- The inherited class passed on to children: extended by the node's
classes only for an Inherit-mode rule with truthy classes. -/
def nodeInh (hs : List HL) (r : RuleData) (inh : String) : String :=
  match highlightTags hs r.rTags with
  | some tc => if tc = "" then inh else if r.mode = .inh then addCls inh tc else inh
  | none => inh

mutual
/-- Model of `HighlightBuilder.highlightRange(cursor, from, to, inheritedClass,
highlighters)`, with the cursor's ancestor names threaded for context
matching and the builder's full highlighter list passed along. -/
def hlRange : STree → Nat → Nat → List String → String → List HL → List HL → Builder → Builder
  | .mk ty lo hi cs mnt, f, T, anc, inh, hs, allHs, b =>
    if T ≤ lo ∨ hi ≤ f then b
    else
      let hs1 := if ty.isTop then scopeFilter allHs ty else hs
      let rule := (getStyleTags ty.rules anc).getD emptyRule
      let cls := nodeCls hs1 rule inh
      let b1 := startSpan b (max f lo) cls
      if rule.mode = .opq then b1
      else
        match mnt with
        | some (some ovs, it) =>
          hlOvFor ovs lo hi cs it lo 0 f T (ty.name :: anc) (nodeInh hs1 rule inh) hs1
            (scopeFilter allHs it.ty) allHs cls b1
        | some (none, _) => hlChildren cs f T (ty.name :: anc) "" hs1 allHs cls b1
        | none => hlChildren cs f T (ty.name :: anc) (nodeInh hs1 rule inh) hs1 allHs cls b1
termination_by t => (sizeOf t, 0, 0)

/-- The `do … while (cursor.nextSibling())` loop over a node's children:
skip children ending before `from`, stop at the first child starting at or
after `to`, and re-assert the parent's class after each highlighted child. -/
def hlChildren : List STree → Nat → Nat → List String → String → List HL → List HL → String →
    Builder → Builder
  | [], _, _, _, _, _, _, _, b => b
  | c :: rest, f, T, anc, inh, hs, allHs, cls, b =>
    if c.hi ≤ f then hlChildren rest f T anc inh hs allHs cls b
    else if T ≤ c.lo then b
    else hlChildren rest f T anc inh hs allHs cls
      (startSpan (hlRange c f T anc inh hs allHs b) (min T c.hi) cls)
termination_by cs => (sizeOf cs, 1, 0)

/-- The `for (let i = 0, pos = start;; i++)` loop over the overlay ranges of
a mounted sub-tree: host children are highlighted over the gaps between
overlay ranges, the inner tree over the clipped overlay ranges (with an
empty initial inherited class and its own scope-filtered highlighter set),
re-asserting the host class after each. -/
def hlOvFor : List (Nat × Nat) → Nat → Nat → List STree → STree → Nat → Nat → Nat → Nat →
    List String → String → List HL → List HL → List HL → String → Builder → Builder
  | [], _, endP, cs, _, pos, k, f, T, anc, inh, hs, _, allHs, cls, b =>
    let rangeFrom := max f pos
    let rangeTo := min T endP
    if rangeFrom < rangeTo ∧ k < cs.length then
      (hlOvWhile cs k rangeFrom rangeTo endP anc inh hs allHs cls b).1
    else b
  | nx :: ovRest, start, endP, cs, it, pos, k, f, T, anc, inh, hs, innerHs, allHs, cls, b =>
    let nextPos := nx.1 + start
    let rangeFrom := max f pos
    let rangeTo := min T nextPos
    let bk := if rangeFrom < rangeTo ∧ k < cs.length then
        hlOvWhile cs k rangeFrom rangeTo nextPos anc inh hs allHs cls b
      else (b, k)
    if T < nextPos then bk.1
    else
      let pos1 := nx.2 + start
      let b2 := if f < pos1 then
          startSpan (hlRange it (max f nextPos) (min T pos1) [] "" innerHs allHs bk.1)
            (min T pos1) cls
        else bk.1
      hlOvFor ovRest start endP cs it pos1 bk.2 f T anc inh hs innerHs allHs cls b2
termination_by ovs _ _ cs it => (sizeOf cs + sizeOf it + 1, sizeOf ovs, 0)

/-- The `while (cursor.from < rangeTo)` loop inside the overlay iteration:
highlight host children falling in the current gap, leaving the cursor on
the first child reaching into the next overlay range (or on the last
child). Returns the new builder and cursor index. -/
def hlOvWhile : List STree → Nat → Nat → Nat → Nat → List String → String → List HL → List HL →
    String → Builder → Builder × Nat
  | cs, k, rangeFrom, rangeTo, nextPos, anc, inh, hs, allHs, cls, b =>
    if h : k < cs.length then
      let c := cs.get ⟨k, h⟩
      if c.lo < rangeTo then
        let b1 := startSpan (hlRange c rangeFrom rangeTo anc inh hs allHs b) (min rangeTo c.hi) cls
        if nextPos ≤ c.hi then (b1, k)
        else if k + 1 < cs.length then
          hlOvWhile cs (k + 1) rangeFrom rangeTo nextPos anc inh hs allHs cls b1
        else (b1, k)
      else (b, k)
    else (b, k)
termination_by cs k => (sizeOf cs, 0, cs.length - k)
decreasing_by
  · exact Prod.Lex.left _ _ (List.sizeOf_lt_of_mem (List.get_mem cs k h))
  · decreasing_tactic
end

/-- Model of `highlightTree(tree, highlighters, putStyle, from, to)`: run the walker
from a fresh builder and flush the open span at `to`; the result is the
list of emitted ranges in order. -/
def highlightTreeOut (t : STree) (hs : List HL) (f T : Nat) : List Span :=
  (flushB (hlRange t f T [] "" hs hs ⟨f, "", []⟩) T).out
/-! ## Walker invariants -/

/-- Well-formedness of an emitted span list between a lower bound `p` and
the builder's open position `q`: spans are non-degenerate, bounded by `T0`,
ordered and pairwise disjoint, with non-empty classes satisfying `GC`. -/
def SpansTo (T0 : Nat) (GC : String → Prop) : Nat → Nat → List Span → Prop
  | p, q, [] => p ≤ q
  | p, q, s :: rest =>
    p ≤ s.lo ∧ s.lo < s.hi ∧ s.hi ≤ T0 ∧ s.cls ≠ "" ∧ GC s.cls ∧ SpansTo T0 GC s.hi q rest

/-- Builder invariant maintained by the walker: the output is well-formed up
to the open position, and the open class is empty or satisfies `GC`. -/
def WOk (f0 T0 : Nat) (GC : String → Prop) (b : Builder) : Prop :=
  SpansTo T0 GC f0 b.bAt b.out ∧ (b.bCls = "" ∨ GC b.bCls)

/-- Premises that let the invariant pass through class computation:
`GC` survives prefixing by an inherited class, holds of truthy composed
highlighter output under `HOK`, and `HOK` survives scope filtering. -/
structure WalkerHyp (T0 : Nat) (GC : String → Prop) (HOK : List HL → Prop) : Prop where
  gcAdd : ∀ i c, GC c → GC (addCls i c)
  tagGC : ∀ hs tags v, HOK hs → highlightTags hs tags = some v → v ≠ "" → GC v
  fil : ∀ hs ty, HOK hs → HOK (scopeFilter hs ty)

lemma spansTo_mono {T0 : Nat} {GC : String → Prop} {p q q' : Nat} {l : List Span}
    (h : SpansTo T0 GC p q l) (hq : q ≤ q') : SpansTo T0 GC p q' l := by
  induction l generalizing p with
  | nil => exact Nat.le_trans h hq
  | cons s rest ih =>
    obtain ⟨h1, h2, h3, h4, h5, h6⟩ := h
    exact ⟨h1, h2, h3, h4, h5, ih h6⟩

lemma spansTo_append {T0 : Nat} {GC : String → Prop} {p q : Nat} {l : List Span}
    {lo hi : Nat} {cls : String}
    (h : SpansTo T0 GC p q l) (h1 : q ≤ lo) (h2 : lo < hi) (h3 : hi ≤ T0)
    (h4 : cls ≠ "") (h5 : GC cls) :
    SpansTo T0 GC p hi (l ++ [⟨lo, hi, cls⟩]) := by
  induction l generalizing p with
  | nil => exact ⟨Nat.le_trans h h1, h2, h3, h4, h5, Nat.le_refl hi⟩
  | cons s rest ih =>
    obtain ⟨g1, g2, g3, g4, g5, g6⟩ := h
    exact ⟨g1, g2, g3, g4, g5, ih g6⟩

lemma startSpan_same {b : Builder} {p : Nat} {cls : String} (h : cls = b.bCls) :
    startSpan b p cls = b := by
  unfold startSpan
  simp [h]

lemma startSpan_emit {b : Builder} {p : Nat} {cls : String}
    (h1 : cls ≠ b.bCls) (h2 : b.bAt < p) (h3 : b.bCls ≠ "") :
    startSpan b p cls = ⟨p, cls, b.out ++ [⟨b.bAt, p, b.bCls⟩]⟩ := by
  unfold startSpan flushB
  simp [h1, h2, h3]

lemma startSpan_adv {b : Builder} {p : Nat} {cls : String}
    (h1 : cls ≠ b.bCls) (h2 : b.bAt < p) (h3 : b.bCls = "") :
    startSpan b p cls = ⟨p, cls, b.out⟩ := by
  have h1' : cls ≠ "" := h3 ▸ h1
  unfold startSpan flushB
  simp [h1, h1', h2, h3]

lemma startSpan_stay {b : Builder} {p : Nat} {cls : String}
    (h1 : cls ≠ b.bCls) (h2 : ¬ b.bAt < p) :
    startSpan b p cls = ⟨b.bAt, cls, b.out⟩ := by
  unfold startSpan flushB
  simp [h1, h2]

lemma wok_startSpan {f0 T0 : Nat} {GC : String → Prop} {b : Builder} {p : Nat} {cls : String}
    (hb : WOk f0 T0 GC b) (hp : p ≤ T0) (hcls : cls = "" ∨ GC cls) :
    WOk f0 T0 GC (startSpan b p cls) := by
  obtain ⟨hout, hbc⟩ := hb
  by_cases h1 : cls = b.bCls
  · rw [startSpan_same h1]
    exact ⟨hout, hbc⟩
  · by_cases h2 : b.bAt < p
    · by_cases h3 : b.bCls = ""
      · rw [startSpan_adv h1 h2 h3]
        exact ⟨spansTo_mono hout (Nat.le_of_lt h2), hcls⟩
      · rw [startSpan_emit h1 h2 h3]
        have hgc : GC b.bCls := by
          rcases hbc with h | h
          · exact absurd h h3
          · exact h
        exact ⟨spansTo_append hout (Nat.le_refl _) h2 hp h3 hgc, hcls⟩
    · rw [startSpan_stay h1 h2]
      exact ⟨hout, hcls⟩
lemma nodeCls_gc {T0 : Nat} {GC : String → Prop} {HOK : List HL → Prop}
    (W : WalkerHyp T0 GC HOK) {hs : List HL} {r : RuleData} {inh : String}
    (hinh : inh = "" ∨ GC inh) (hhs : HOK hs) :
    nodeCls hs r inh = "" ∨ GC (nodeCls hs r inh) := by
  unfold nodeCls
  rcases hht : highlightTags hs r.rTags with _ | v
  · exact hinh
  · by_cases hv : v = ""
    · simp [hv]; exact hinh
    · simp [hv]
      exact Or.inr (W.gcAdd inh v (W.tagGC hs r.rTags v hhs hht hv))

lemma nodeInh_gc {T0 : Nat} {GC : String → Prop} {HOK : List HL → Prop}
    (W : WalkerHyp T0 GC HOK) {hs : List HL} {r : RuleData} {inh : String}
    (hinh : inh = "" ∨ GC inh) (hhs : HOK hs) :
    nodeInh hs r inh = "" ∨ GC (nodeInh hs r inh) := by
  unfold nodeInh
  rcases hht : highlightTags hs r.rTags with _ | v
  · exact hinh
  · by_cases hv : v = ""
    · simp [hv]; exact hinh
    · simp [hv]
      by_cases hm : r.mode = .inh
      · simp [hm]
        exact Or.inr (W.gcAdd inh v (W.tagGC hs r.rTags v hhs hht hv))
      · simp [hm]; exact hinh

lemma wok_final {f0 T0 : Nat} {GC : String → Prop} {b : Builder}
    (hb : WOk f0 T0 GC b) : ∃ q, SpansTo T0 GC f0 q (flushB b T0).out := by
  obtain ⟨hout, hbc⟩ := hb
  unfold flushB
  by_cases h : b.bAt < T0 ∧ b.bCls ≠ ""
  · have hgc : GC b.bCls := by
      rcases hbc with h1 | h1
      · exact absurd h1 h.2
      · exact h1
    exact ⟨T0, by simpa [h] using spansTo_append hout (Nat.le_refl _) h.1 (Nat.le_refl _) h.2 hgc⟩
  · exact ⟨b.bAt, by simpa [h] using hout⟩

lemma spansTo_bounds {T0 : Nat} {GC : String → Prop} {p q : Nat} {l : List Span}
    (h : SpansTo T0 GC p q l) :
    ∀ s ∈ l, p ≤ s.lo ∧ s.lo < s.hi ∧ s.hi ≤ T0 ∧ s.cls ≠ "" ∧ GC s.cls := by
  induction l generalizing p with
  | nil => intro s hs; exact absurd hs (List.not_mem_nil s)
  | cons t rest ih =>
    obtain ⟨h1, h2, h3, h4, h5, h6⟩ := h
    intro s hs
    rcases List.mem_cons.mp hs with h7 | h7
    · subst h7; exact ⟨h1, h2, h3, h4, h5⟩
    · have := ih h6 s h7
      exact ⟨by omega, this.2⟩

lemma spansTo_chain {T0 : Nat} {GC : String → Prop} {p q : Nat} {l : List Span}
    (h : SpansTo T0 GC p q l) : l.Chain' (fun a b => a.hi ≤ b.lo) := by
  induction l generalizing p with
  | nil => exact List.chain'_nil
  | cons t rest ih =>
    obtain ⟨h1, h2, h3, h4, h5, h6⟩ := h
    rcases rest with _ | ⟨u, rest'⟩
    · simp
    · refine List.Chain'.cons ?_ (ih h6)
      exact h6.1
mutual
/-- The walker preserves the builder invariant: every `startSpan` position
it passes is bounded by `T0` and every class it opens is empty or `GC`. -/
theorem hlRange_wok (f0 T0 : Nat) (GC : String → Prop) (HOK : List HL → Prop)
    (W : WalkerHyp T0 GC HOK) (t : STree) (f T : Nat) (anc : List String) (inh : String)
    (hs allHs : List HL) (b : Builder)
    (hf : f ≤ T0) (hT : T ≤ T0) (hinh : inh = "" ∨ GC inh)
    (hhs : HOK hs) (hall : HOK allHs) (hb : WOk f0 T0 GC b) :
    WOk f0 T0 GC (hlRange t f T anc inh hs allHs b) := by
  rcases t with ⟨ty, lo, hi, cs, mnt⟩
  have hhs1 : HOK (if ty.isTop then scopeFilter allHs ty else hs) := by
    by_cases ht : ty.isTop
    · simpa [ht] using W.fil allHs ty hall
    · simpa [ht] using hhs
  by_cases hg : T ≤ lo ∨ hi ≤ f
  · simp only [hlRange]
    rw [if_pos hg]
    exact hb
  · have hcls := @nodeCls_gc T0 GC HOK W (if ty.isTop then scopeFilter allHs ty else hs)
      ((getStyleTags ty.rules anc).getD emptyRule) inh hinh hhs1
    have hinh1 := @nodeInh_gc T0 GC HOK W (if ty.isTop then scopeFilter allHs ty else hs)
      ((getStyleTags ty.rules anc).getD emptyRule) inh hinh hhs1
    have hb1 : WOk f0 T0 GC (startSpan b (max f lo)
        (nodeCls (if ty.isTop then scopeFilter allHs ty else hs)
          ((getStyleTags ty.rules anc).getD emptyRule) inh)) :=
      wok_startSpan hb (by omega) hcls
    rcases mnt with _ | ⟨ov, it⟩
    · simp only [hlRange]
      rw [if_neg hg]
      by_cases ho : ((getStyleTags ty.rules anc).getD emptyRule).mode = Mode.opq
      · rw [if_pos ho]
        exact hb1
      · rw [if_neg ho]
        exact hlChildren_wok f0 T0 GC HOK W cs f T (ty.name :: anc) _ _ allHs _ _
          hf hT hinh1 hhs1 hall hcls hb1
    · rcases ov with _ | ovs
      · simp only [hlRange]
        rw [if_neg hg]
        by_cases ho : ((getStyleTags ty.rules anc).getD emptyRule).mode = Mode.opq
        · rw [if_pos ho]
          exact hb1
        · rw [if_neg ho]
          exact hlChildren_wok f0 T0 GC HOK W cs f T (ty.name :: anc) "" _ allHs _ _
            hf hT (Or.inl rfl) hhs1 hall hcls hb1
      · simp only [hlRange]
        rw [if_neg hg]
        by_cases ho : ((getStyleTags ty.rules anc).getD emptyRule).mode = Mode.opq
        · rw [if_pos ho]
          exact hb1
        · rw [if_neg ho]
          exact hlOvFor_wok f0 T0 GC HOK W ovs lo hi cs it lo 0 f T (ty.name :: anc) _ _
            (scopeFilter allHs it.ty) allHs _ _
            hf hT hinh1 hhs1 (W.fil allHs it.ty hall) hall hcls hb1
termination_by (sizeOf t, 0, 0)

/-- The children loop preserves the builder invariant. -/
theorem hlChildren_wok (f0 T0 : Nat) (GC : String → Prop) (HOK : List HL → Prop)
    (W : WalkerHyp T0 GC HOK) (cs : List STree) (f T : Nat) (anc : List String) (inh : String)
    (hs allHs : List HL) (cls : String) (b : Builder)
    (hf : f ≤ T0) (hT : T ≤ T0) (hinh : inh = "" ∨ GC inh)
    (hhs : HOK hs) (hall : HOK allHs) (hcls : cls = "" ∨ GC cls) (hb : WOk f0 T0 GC b) :
    WOk f0 T0 GC (hlChildren cs f T anc inh hs allHs cls b) := by
  rcases cs with _ | ⟨c, rest⟩
  · simp only [hlChildren]
    exact hb
  · simp only [hlChildren]
    by_cases h1 : c.hi ≤ f
    · rw [if_pos h1]
      exact hlChildren_wok f0 T0 GC HOK W rest f T anc inh hs allHs cls b
        hf hT hinh hhs hall hcls hb
    · rw [if_neg h1]
      by_cases h2 : T ≤ c.lo
      · rw [if_pos h2]
        exact hb
      · rw [if_neg h2]
        exact hlChildren_wok f0 T0 GC HOK W rest f T anc inh hs allHs cls _
          hf hT hinh hhs hall hcls
          (wok_startSpan
            (hlRange_wok f0 T0 GC HOK W c f T anc inh hs allHs b hf hT hinh hhs hall hb)
            (by omega) hcls)
termination_by (sizeOf cs, 1, 0)

/-- The overlay loop preserves the builder invariant. -/
theorem hlOvFor_wok (f0 T0 : Nat) (GC : String → Prop) (HOK : List HL → Prop)
    (W : WalkerHyp T0 GC HOK) (ovs : List (Nat × Nat)) (start endP : Nat) (cs : List STree)
    (it : STree) (pos k : Nat) (f T : Nat) (anc : List String) (inh : String)
    (hs innerHs allHs : List HL) (cls : String) (b : Builder)
    (hf : f ≤ T0) (hT : T ≤ T0) (hinh : inh = "" ∨ GC inh)
    (hhs : HOK hs) (hinner : HOK innerHs) (hall : HOK allHs)
    (hcls : cls = "" ∨ GC cls) (hb : WOk f0 T0 GC b) :
    WOk f0 T0 GC (hlOvFor ovs start endP cs it pos k f T anc inh hs innerHs allHs cls b) := by
  rcases ovs with _ | ⟨nx, ovRest⟩
  · simp only [hlOvFor]
    by_cases hc : max f pos < min T endP ∧ k < cs.length
    · rw [if_pos hc]
      exact (hlOvWhile_wok f0 T0 GC HOK W cs k (max f pos) (min T endP) endP anc inh hs allHs
        cls b (by omega) (by omega) hinh hhs hall hcls hb)
    · rw [if_neg hc]
      exact hb
  · simp only [hlOvFor]
    by_cases hc : max f pos < min T (nx.1 + start) ∧ k < cs.length
    · rw [if_pos hc]
      have hB1 := hlOvWhile_wok f0 T0 GC HOK W cs k (max f pos) (min T (nx.1 + start))
        (nx.1 + start) anc inh hs allHs cls b (by omega) (by omega) hinh hhs hall hcls hb
      by_cases hn : T < nx.1 + start
      · rw [if_pos hn]
        exact hB1
      · rw [if_neg hn]
        by_cases hp1 : f < nx.2 + start
        · rw [if_pos hp1]
          exact hlOvFor_wok f0 T0 GC HOK W ovRest start endP cs it (nx.2 + start) _ f T anc inh
            hs innerHs allHs cls _ hf hT hinh hhs hinner hall hcls
            (wok_startSpan
              (hlRange_wok f0 T0 GC HOK W it (max f (nx.1 + start)) (min T (nx.2 + start)) [] ""
                innerHs allHs _ (by omega) (by omega) (Or.inl rfl) hinner hall hB1)
              (by omega) hcls)
        · rw [if_neg hp1]
          exact hlOvFor_wok f0 T0 GC HOK W ovRest start endP cs it (nx.2 + start) _ f T anc inh
            hs innerHs allHs cls _ hf hT hinh hhs hinner hall hcls hB1
    · rw [if_neg hc]
      by_cases hn : T < nx.1 + start
      · rw [if_pos hn]
        exact hb
      · rw [if_neg hn]
        by_cases hp1 : f < nx.2 + start
        · rw [if_pos hp1]
          exact hlOvFor_wok f0 T0 GC HOK W ovRest start endP cs it (nx.2 + start) _ f T anc inh
            hs innerHs allHs cls _ hf hT hinh hhs hinner hall hcls
            (wok_startSpan
              (hlRange_wok f0 T0 GC HOK W it (max f (nx.1 + start)) (min T (nx.2 + start)) [] ""
                innerHs allHs _ (by omega) (by omega) (Or.inl rfl) hinner hall hb)
              (by omega) hcls)
        · rw [if_neg hp1]
          exact hlOvFor_wok f0 T0 GC HOK W ovRest start endP cs it (nx.2 + start) _ f T anc inh
            hs innerHs allHs cls _ hf hT hinh hhs hinner hall hcls hb
termination_by (sizeOf cs + sizeOf it + 1, sizeOf ovs, 0)

/-- The overlay gap loop preserves the builder invariant. -/
theorem hlOvWhile_wok (f0 T0 : Nat) (GC : String → Prop) (HOK : List HL → Prop)
    (W : WalkerHyp T0 GC HOK) (cs : List STree) (k : Nat) (rangeFrom rangeTo nextPos : Nat)
    (anc : List String) (inh : String) (hs allHs : List HL) (cls : String) (b : Builder)
    (hrf : rangeFrom ≤ T0) (hrt : rangeTo ≤ T0) (hinh : inh = "" ∨ GC inh)
    (hhs : HOK hs) (hall : HOK allHs) (hcls : cls = "" ∨ GC cls) (hb : WOk f0 T0 GC b) :
    WOk f0 T0 GC
      (hlOvWhile cs k rangeFrom rangeTo nextPos anc inh hs allHs cls b).1 := by
  rw [hlOvWhile]
  by_cases hk : k < cs.length
  · rw [dif_pos hk]
    by_cases hclo : (cs.get ⟨k, hk⟩).lo < rangeTo
    · rw [if_pos hclo]
      have hb1 := wok_startSpan
        (hlRange_wok f0 T0 GC HOK W (cs.get ⟨k, hk⟩) rangeFrom rangeTo anc inh hs allHs b
          hrf hrt hinh hhs hall hb)
        (p := min rangeTo (cs.get ⟨k, hk⟩).hi) (by omega) hcls
      by_cases hnp : nextPos ≤ (cs.get ⟨k, hk⟩).hi
      · rw [if_pos hnp]
        exact hb1
      · rw [if_neg hnp]
        by_cases hk1 : k + 1 < cs.length
        · rw [if_pos hk1]
          exact hlOvWhile_wok f0 T0 GC HOK W cs (k + 1) rangeFrom rangeTo nextPos anc inh hs
            allHs cls _ hrf hrt hinh hhs hall hcls hb1
        · rw [if_neg hk1]
          exact hb1
    · rw [if_neg hclo]
      exact hb
  · rw [dif_neg hk]
    exact hb
termination_by (sizeOf cs, 0, cs.length - k)
decreasing_by
  · exact Prod.Lex.left _ _ (List.sizeOf_lt_of_mem (List.get_mem cs k hk))
  · decreasing_tactic
end
/-- Trivial walker premises for the range/order instantiation. -/
def trivialWalkerHyp (T0 : Nat) : WalkerHyp T0 (fun _ => True) (fun _ => True) :=
  ⟨fun _ _ _ => trivial, fun _ _ _ _ _ _ => trivial, fun _ _ _ => trivial⟩

/-- C4 (amended): every range emitted by `highlightTree` over `[from, to)`
carries a non-empty class, lies inside `[from, to)`, and the ranges are
pairwise disjoint and strictly increasing.  (The coalescing half of C4 is
refuted separately: touching emissions may carry identical classes.) -/
theorem highlightTree_ranges (t : STree) (hs : List HL) (f T : Nat) (h : f ≤ T) :
    (∀ s ∈ highlightTreeOut t hs f T,
      s.cls ≠ "" ∧ f ≤ s.lo ∧ s.lo < s.hi ∧ s.hi ≤ T) ∧
    (highlightTreeOut t hs f T).Chain' (fun a b => a.hi ≤ b.lo) := by
  have hb0 : WOk f T (fun _ => True) ⟨f, "", []⟩ := ⟨Nat.le_refl f, Or.inl rfl⟩
  have hw := hlRange_wok f T (fun _ => True) (fun _ => True) (trivialWalkerHyp T)
    t f T [] "" hs hs ⟨f, "", []⟩ h (Nat.le_refl T) (Or.inl rfl) trivial trivial hb0
  obtain ⟨q, hq⟩ := wok_final hw
  unfold highlightTreeOut
  refine ⟨?_, spansTo_chain hq⟩
  intro s hsm
  have hb := spansTo_bounds hq s hsm
  exact ⟨hb.2.2.2.1, hb.1, hb.2.1, hb.2.2.1⟩

def c4Key : TagKey := ⟨0, []⟩

def c4Tag : STag := ⟨c4Key, [c4Key]⟩

def c4TyA : NType := ⟨"A", false, [⟨[c4Tag], .norm, none⟩]⟩

def c4TyR : NType := ⟨"R", false, []⟩

def c4HL : HL := ⟨thStyle (buildMap [([c4Key], "A")]) none, none⟩

def c4Tree : STree := .mk c4TyR 0 10 [.mk c4TyA 0 5 [] none, .mk c4TyA 5 9 [] none] none

/-- C4 fails on the code in its coalescing half: two adjacent siblings that
both style as `"A"` under a parent with no class of its own produce the two
emissions `(0,5,"A")` and `(5,9,"A")` — consecutive, touching
(`prev.to == next.from`) and with identical class strings, because the
parent re-asserts its empty class at the boundary and so closes the first
span there. -/
theorem c4_counterexample :
    highlightTreeOut c4Tree [c4HL] 0 10 = [⟨0, 5, "A"⟩, ⟨5, 9, "A"⟩] ∧
    (Span.mk 0 5 "A").hi = (Span.mk 5 9 "A").lo ∧
    (Span.mk 0 5 "A").cls = (Span.mk 5 9 "A").cls := by
  refine ⟨?_, rfl, rfl⟩
  simp [highlightTreeOut, hlRange.eq_def, hlChildren.eq_def, c4Tree, c4TyR, c4TyA, c4HL, c4Tag,
    c4Key, startSpan, flushB, nodeCls, nodeInh, highlightTags, thStyle, firstClass, lookupMap,
    buildMap, getStyleTags, emptyRule, addOpt, addCls, scopeFilter, STree.lo, STree.hi, STree.ty]

/-- Witness for C4 (amended) on a concrete tree and highlighter. -/
theorem highlightTree_ranges_witness :
    (0 : Nat) ≤ 10 ∧
    ((∀ s ∈ highlightTreeOut c4Tree [c4HL] 0 10,
      s.cls ≠ "" ∧ 0 ≤ s.lo ∧ s.lo < s.hi ∧ s.hi ≤ 10) ∧
    (highlightTreeOut c4Tree [c4HL] 0 10).Chain' (fun a b => a.hi ≤ b.lo)) :=
  ⟨by decide, highlightTree_ranges c4Tree [c4HL] 0 10 (by decide)⟩
def c6Ty : NType := ⟨"X", false, [⟨[], .opq, none⟩]⟩

/-- C6 fails on the code: an Opaque-matched node whose combined class is
empty (here: no highlighter styles its rule's tags, nothing inherited)
produces NO emission at all, although its clipped range `[1, 3)` is
non-empty — not "exactly one emission spanning the clip". -/
theorem c6_counterexample :
    highlightTreeOut (STree.mk c6Ty 1 3 [] none) [] 0 4 = [] ∧ max 0 1 < min 4 3 := by
  refine ⟨?_, by decide⟩
  simp [highlightTreeOut, hlRange.eq_def, c6Ty, startSpan, flushB, nodeCls, nodeInh,
    highlightTags, getStyleTags, emptyRule, scopeFilter, addCls, addOpt]

/-- C6 (amended): a node matched by an Opaque rule is never descended into —
the walker's result is unchanged by replacing its children and mount — and
when such a node is the root of the highlighted tree, its combined class is
non-empty and `max(from, N.from) < to ≤ N.to`, the walk emits exactly one
range, spanning `[N.from, N.to]` clipped to `[from, to)`, carrying the
rule's classes plus the (empty) inherited class. -/
theorem hlRange_opq (ty : NType) (lo hi : Nat) (cs cs' : List STree)
    (m m' : Option (Option (List (Nat × Nat)) × STree)) (f T : Nat) (anc : List String)
    (inh : String) (hs allHs : List HL) (b : Builder) (r : RuleData)
    (hr : getStyleTags ty.rules anc = some r) (ho : r.mode = .opq) :
    hlRange (.mk ty lo hi cs m) f T anc inh hs allHs b =
      hlRange (.mk ty lo hi cs' m') f T anc inh hs allHs b ∧
    (anc = [] →
      nodeCls (if ty.isTop then scopeFilter hs ty else hs) r "" ≠ "" →
      max f lo < T → T ≤ hi →
      highlightTreeOut (.mk ty lo hi cs m) hs f T =
        [⟨max f lo, T, nodeCls (if ty.isTop then scopeFilter hs ty else hs) r ""⟩]) := by
  constructor
  · by_cases hg : T ≤ lo ∨ hi ≤ f
    · rcases m with _ | ⟨_ | _, _⟩ <;> rcases m' with _ | ⟨_ | _, _⟩ <;>
        (simp only [hlRange]; rw [if_pos hg, if_pos hg])
    · rcases m with _ | ⟨_ | _, _⟩ <;> rcases m' with _ | ⟨_ | _, _⟩ <;>
        (simp only [hlRange]; rw [if_neg hg, if_neg hg]; rw [hr]; simp [Option.getD, ho])
  · intro hanc hne h3 h4
    subst hanc
    have hg : ¬ (T ≤ lo ∨ hi ≤ f) := by omega
    unfold highlightTreeOut
    rcases m with _ | ⟨_ | _, _⟩ <;>
      (simp only [hlRange]
       rw [if_neg hg, hr]
       simp only [Option.getD, ho, if_pos]
       rw [show ((if ty.isTop then scopeFilter hs ty else hs)) = _ from rfl]
       by_cases hfl : f < max f lo
       · rw [startSpan_adv (b := ⟨f, "", []⟩) hne hfl rfl]
         unfold flushB
         simp [h3, hne]
       · rw [startSpan_stay (b := ⟨f, "", []⟩) hne hfl]
         unfold flushB
         have hmx : max f lo = f := by omega
         simp only [hmx] at h3 ⊢
         simp [h3, hne])
def c6WKey : TagKey := ⟨7, []⟩

def c6WTag : STag := ⟨c6WKey, [c6WKey]⟩

def c6WRule : RuleData := ⟨[c6WTag], .opq, none⟩

def c6WTy : NType := ⟨"Attr", false, [c6WRule]⟩

def c6WHL : HL := ⟨thStyle (buildMap [([c6WKey], "M")]) none, none⟩

def c6WChild : STree := .mk ⟨"S", false, []⟩ 2 6 [] none

/-- Witness for C6 (amended): an opaque node spanning `[0,8]` with a child
is highlighted identically with or without the child, and emits exactly one
range. -/
theorem hlRange_opq_witness :
    (getStyleTags c6WTy.rules [] = some c6WRule ∧ c6WRule.mode = .opq ∧
      nodeCls (if c6WTy.isTop then scopeFilter [c6WHL] c6WTy else [c6WHL]) c6WRule "" ≠ "" ∧
      max 0 0 < 8 ∧ 8 ≤ 8) ∧
    hlRange (.mk c6WTy 0 8 [c6WChild] none) 0 8 [] "" [c6WHL] [c6WHL] ⟨0, "", []⟩ =
      hlRange (.mk c6WTy 0 8 [] none) 0 8 [] "" [c6WHL] [c6WHL] ⟨0, "", []⟩ ∧
    highlightTreeOut (.mk c6WTy 0 8 [c6WChild] none) [c6WHL] 0 8 =
      [⟨max 0 0, 8,
        nodeCls (if c6WTy.isTop then scopeFilter [c6WHL] c6WTy else [c6WHL]) c6WRule ""⟩] :=
  ⟨⟨rfl, rfl, by decide, by decide, by decide⟩,
    (hlRange_opq c6WTy 0 8 [c6WChild] [] none none 0 8 [] "" [c6WHL] [c6WHL] ⟨0, "", []⟩
      c6WRule rfl rfl).1,
    (hlRange_opq c6WTy 0 8 [c6WChild] [c6WChild] none none 0 8 [] "" [c6WHL] [c6WHL]
      ⟨0, "", []⟩ c6WRule rfl rfl).2 rfl (by decide) (by decide) (by decide)⟩

/-- C7: inherited classes never cross a mount boundary.  For a node carrying
a full-replacement mount (no overlay) the walker descends into the children
with an empty inherited class — whatever `inheritedClass` was and whatever
the rule's mode — and the result ignores the mounted inner tree; for an
overlay mount, the inner sub-tree is highlighted over the clipped overlay
range with an empty initial inherited class, no ancestor context, and the
highlighter set scope-filtered by the inner tree's top type. -/
theorem hlRange_mount (ty : NType) (lo hi : Nat) (cs : List STree) (it it' : STree)
    (o : Nat × Nat) (f T : Nat) (anc : List String) (inh : String) (hs allHs : List HL)
    (b : Builder)
    (hg : ¬ (T ≤ lo ∨ hi ≤ f))
    (ho : ((getStyleTags ty.rules anc).getD emptyRule).mode ≠ .opq) :
    hlRange (.mk ty lo hi cs (some (none, it))) f T anc inh hs allHs b =
      hlChildren cs f T (ty.name :: anc) "" (if ty.isTop then scopeFilter allHs ty else hs)
        allHs (nodeCls (if ty.isTop then scopeFilter allHs ty else hs)
          ((getStyleTags ty.rules anc).getD emptyRule) inh)
        (startSpan b (max f lo)
          (nodeCls (if ty.isTop then scopeFilter allHs ty else hs)
            ((getStyleTags ty.rules anc).getD emptyRule) inh)) ∧
    hlRange (.mk ty lo hi cs (some (none, it))) f T anc inh hs allHs b =
      hlRange (.mk ty lo hi cs (some (none, it'))) f T anc inh hs allHs b ∧
    (o.1 + lo ≤ T → f < o.2 + lo →
      hlRange (.mk ty lo hi [] (some (some [o], it))) f T anc inh hs allHs b =
        startSpan
          (hlRange it (max f (o.1 + lo)) (min T (o.2 + lo)) [] ""
            (scopeFilter allHs it.ty) allHs
            (startSpan b (max f lo)
              (nodeCls (if ty.isTop then scopeFilter allHs ty else hs)
                ((getStyleTags ty.rules anc).getD emptyRule) inh)))
          (min T (o.2 + lo))
          (nodeCls (if ty.isTop then scopeFilter allHs ty else hs)
            ((getStyleTags ty.rules anc).getD emptyRule) inh)) := by
  refine ⟨?_, ?_, ?_⟩
  · simp only [hlRange]
    rw [if_neg hg, if_neg ho]
  · simp only [hlRange]
  · intro h1 h2
    simp only [hlRange]
    rw [if_neg hg, if_neg ho]
    have hn : ¬ (T < o.1 + lo) := by omega
    simp only [hlOvFor]
    simp [hn, h2]
lemma strNe {s : String} (h : s.data ≠ []) : s ≠ "" := by
  intro he
  rw [he] at h
  exact h rfl

lemma firstClass_ne {mp : List (TagKey × String)} {chain : List TagKey} {c : String}
    (h : firstClass mp chain = some c) : c ≠ "" := by
  unfold firstClass at h
  obtain ⟨sub, _, hf⟩ := List.exists_of_findSome?_eq_some h
  rcases hlk : lookupMap mp sub with _ | v
  · rw [hlk] at hf
    exact absurd hf (by simp)
  · rw [hlk] at hf
    by_cases hv : v = ""
    · simp [hv] at hf
    · simp [hv] at hf
      exact hf ▸ hv

lemma joinSp_concat (l : List String) (c : String) (h : l ≠ []) :
    joinSp (l ++ [c]) = joinSp l ++ " " ++ c := by
  induction l with
  | nil => exact absurd rfl h
  | cons x rest ih =>
    rcases rest with _ | ⟨y, rest'⟩
    · simp [joinSp]
    · have h2 := ih (by simp)
      simp only [List.cons_append] at h2 ⊢
      rw [joinSp, h2, joinSp]
      simp [String.append_assoc]

lemma joinSp_ne {l : List String} (h : l ≠ []) (h2 : ∀ s ∈ l, s ≠ "") : joinSp l ≠ "" := by
  rcases l with _ | ⟨x, rest⟩
  · exact absurd rfl h
  · have hx : x ≠ "" := h2 x (List.mem_cons_self x rest)
    have hxd : x.data ≠ [] := fun hd => hx (String.ext hd)
    rcases rest with _ | ⟨y, rest'⟩
    · simpa [joinSp] using hx
    · rw [joinSp]
      apply strNe
      rw [String.data_append, String.data_append]
      simp [hxd]

lemma thStyle_go (mp : List (TagKey × String)) (tags : List STag) :
    ∀ (acc : List String), acc ≠ [] → (∀ s ∈ acc, s ≠ "") →
    tags.foldl (fun cls t =>
      match firstClass mp t.chain with
      | some c => addOpt cls c
      | none => cls) (some (joinSp acc)) =
      some (joinSp (acc ++ tags.filterMap (fun t => firstClass mp t.chain))) := by
  induction tags with
  | nil => simp
  | cons t rest ih =>
    intro acc hne hnee
    simp only [List.foldl_cons, List.filterMap_cons]
    rcases hfc : firstClass mp t.chain with _ | c
    · simp only [hfc]
      simpa using ih acc hne hnee
    · simp only [hfc]
      have hc := firstClass_ne hfc
      have hj := joinSp_ne hne hnee
      have hstep : addOpt (some (joinSp acc)) c = some (joinSp (acc ++ [c])) := by
        simp [addOpt, hj, joinSp_concat acc c hne]
      rw [hstep]
      have hrec := ih (acc ++ [c]) (by simp) (by
        intro s hsm
        rcases List.mem_append.mp hsm with h3 | h3
        · exact hnee s h3
        · simpa using (List.mem_singleton.mp h3) ▸ hc)
      rw [hrec]
      simp [List.append_assoc]

lemma thStyle_goNone (mp : List (TagKey × String)) (tags : List STag) :
    tags.foldl (fun cls t =>
      match firstClass mp t.chain with
      | some c => addOpt cls c
      | none => cls) none =
      (match tags.filterMap (fun t => firstClass mp t.chain) with
       | [] => none
       | l => some (joinSp l)) := by
  induction tags with
  | nil => simp
  | cons t rest ih =>
    simp only [List.foldl_cons, List.filterMap_cons]
    rcases hfc : firstClass mp t.chain with _ | c
    · simp only [hfc]
      simpa using ih
    · simp only [hfc]
      have hc := firstClass_ne hfc
      have hstep : addOpt none c = some (joinSp [c]) := by
        simp [addOpt, joinSp]
      rw [hstep]
      have := thStyle_go mp rest [c] (by simp) (by simpa using hc)
      rw [this]
      simp
/-- C5 (amended): the style function built by `tagHighlighter` equals the
collect-then-join procedure that starts from `all`, picks per input tag the
class of the first chain element carrying a NON-EMPTY class, joins with
spaces, and yields nothing when no class was picked and `all` was absent
(stated for a non-empty `all`, matching `tagHighlighter`'s intended use). -/
theorem thStyle_spec (mp : List (TagKey × String)) (allC : Option String) (tags : List STag)
    (hall : ∀ s, allC = some s → s ≠ "") :
    thStyle mp allC tags = thStyleAmended mp allC tags := by
  rcases allC with _ | a
  · rcases hp : tags.filterMap (fun t => firstClass mp t.chain) with _ | ⟨c, rest⟩
    · simp [thStyle, thStyleAmended, thStyle_goNone mp tags, hp]
    · simp [thStyle, thStyleAmended, thStyle_goNone mp tags, hp]
  · have ha : a ≠ "" := hall a rfl
    have hgo := thStyle_go mp tags [a] (by simp) (by simpa using ha)
    simp only [thStyle, thStyleAmended]
    simpa [joinSp] using hgo

def c5K0 : TagKey := ⟨0, []⟩

def c5K1 : TagKey := ⟨1, []⟩

def c5Map : List (TagKey × String) := buildMap [([c5K0], ""), ([c5K1], "P")]

def c5Tagg : STag := ⟨c5K0, [c5K0, c5K1]⟩

/-- C5 fails on the code as literally stated: with a pair mapping tag 0 to
the EMPTY class and tag 0's parent (tag 1) to `"P"`, the code's scan skips
the falsy empty entry and styles the tag as `"P"`, whereas stopping at the
first chain element merely PRESENT in the map would stop at tag 0 and
produce the empty class. -/
theorem c5_counterexample :
    thStyle c5Map none [c5Tagg] = some "P" ∧
    thStyleClaim c5Map none [c5Tagg] = some "" ∧
    (some "P" : Option String) ≠ some "" :=
  ⟨by decide, by decide, by decide⟩

/-- Witness for C5 (amended) at the concrete map and tag of the
counterexample, with `all` present. -/
theorem thStyle_spec_witness :
    (∀ s, (some "base" : Option String) = some s → s ≠ "") ∧
    thStyle c5Map (some "base") [c5Tagg] = thStyleAmended c5Map (some "base") [c5Tagg] :=
  ⟨fun s hsome => by cases hsome; decide,
    thStyle_spec c5Map (some "base") [c5Tagg] (fun s hsome => by cases hsome; decide)⟩
lemma strHas_self (a : String) : strHas a a := ⟨[], [], by simp⟩

lemma strHas_appendL {a s c : String} (h : strHas a c) : strHas a (s ++ c) := by
  obtain ⟨l, r, hr⟩ := h
  refine ⟨s.data ++ l, r, ?_⟩
  rw [String.data_append, ← hr]
  simp [List.append_assoc]

lemma strHas_appendR {a s c : String} (h : strHas a s) : strHas a (s ++ c) := by
  obtain ⟨l, r, hr⟩ := h
  refine ⟨l, r ++ c.data, ?_⟩
  rw [String.data_append, ← hr]
  simp [List.append_assoc]

lemma strHas_ne {a c : String} (ha : a ≠ "") (h : strHas a c) : c ≠ "" := by
  obtain ⟨l, r, hr⟩ := h
  apply strNe
  rw [← hr]
  have hnd : a.data ≠ [] := fun hd => ha (String.ext hd)
  simp [hnd]

lemma strHas_addCls {a i c : String} (h : strHas a c) : strHas a (addCls i c) := by
  unfold addCls
  split
  · exact h
  · exact strHas_appendL h

lemma strHas_joinSp_head (a : String) (rest : List String) : strHas a (joinSp (a :: rest)) := by
  rcases rest with _ | ⟨y, rest'⟩
  · exact strHas_self a
  · rw [joinSp]
    exact strHas_appendR (strHas_appendR (strHas_self a))

lemma thStyle_all {mp : List (TagKey × String)} {a : String} (tags : List STag) (ha : a ≠ "") :
    ∃ r, thStyle mp (some a) tags = some r ∧ strHas a r ∧ r ≠ "" := by
  have hgo := thStyle_go mp tags [a] (by simp) (by simpa using ha)
  refine ⟨joinSp (a :: tags.filterMap (fun t => firstClass mp t.chain)), ?_, ?_, ?_⟩
  · simpa [thStyle, joinSp] using hgo
  · exact strHas_joinSp_head a _
  · refine joinSp_ne (by simp) ?_
    intro s hsm
    rcases List.mem_cons.mp hsm with h | h
    · exact h ▸ ha
    · obtain ⟨t, _, hft⟩ := List.mem_filterMap.mp h
      exact firstClass_ne hft

lemma strAppend_ne {r : String} (h : r ≠ "") (s : String) : (r ++ s) ≠ "" := by
  apply strNe
  rw [String.data_append]
  have : r.data ≠ [] := fun hd => h (String.ext hd)
  simp [this]

lemma highlightTags_keep {a : String} (hs : List HL) (tags : List STag) (res : Option String)
    (h : ∃ r, res = some r ∧ strHas a r ∧ r ≠ "") :
    ∃ r, hs.foldl (fun res h =>
      match h.style tags with
      | some v => if v = "" then res else addOpt res v
      | none => res) res = some r ∧ strHas a r ∧ r ≠ "" := by
  induction hs generalizing res with
  | nil => exact h
  | cons hl rest ih =>
    obtain ⟨r, hr, hhas, hne⟩ := h
    subst hr
    simp only [List.foldl_cons]
    rcases hst : hl.style tags with _ | v
    · exact ih _ ⟨r, rfl, hhas, hne⟩
    · by_cases hv : v = ""
      · simp only [hst, hv, if_pos rfl]
        exact ih _ ⟨r, rfl, hhas, hne⟩
      · simp only [hst, if_neg hv]
        have haddr : addOpt (some r) v = some (r ++ " " ++ v) := by simp [addOpt, hne]
        rw [haddr]
        exact ih _ ⟨r ++ " " ++ v, rfl, strHas_appendR (strHas_appendR hhas),
          strAppend_ne (strAppend_ne hne " ") v⟩

lemma highlightTags_from {mp : List (TagKey × String)} {a : String} {h0 : HL}
    (tags : List STag) (ha : a ≠ "") (hsty : h0.style = thStyle mp (some a)) :
    ∀ (hs : List HL) (res : Option String), h0 ∈ hs →
    ∃ r, hs.foldl (fun res h =>
      match h.style tags with
      | some v => if v = "" then res else addOpt res v
      | none => res) res = some r ∧ strHas a r ∧ r ≠ "" := by
  intro hs
  induction hs with
  | nil => exact fun res hmem => absurd hmem (List.not_mem_nil h0)
  | cons hl rest ih =>
    intro res hmem
    simp only [List.foldl_cons]
    rcases List.mem_cons.mp hmem with he | hm
    · obtain ⟨r0, hr0, hhas0, hne0⟩ := @thStyle_all mp a tags ha
      have hst : hl.style tags = some r0 := by rw [← he, hsty]; exact hr0
      have hstep : (match hl.style tags with
          | some v => if v = "" then res else addOpt res v
          | none => res) = addOpt res r0 := by
        rw [hst]
        simp [hne0]
      rw [hstep]
      apply highlightTags_keep
      rcases res with _ | rr
      · exact ⟨r0, by simp [addOpt], hhas0, hne0⟩
      · by_cases hrr : rr = ""
        · exact ⟨r0, by simp [addOpt, hrr], hhas0, hne0⟩
        · exact ⟨rr ++ " " ++ r0, by simp [addOpt, hrr], strHas_appendL hhas0,
            strAppend_ne (strAppend_ne hrr " ") r0⟩
    · exact ih _ hm

lemma highlightTags_all {mp : List (TagKey × String)} {a : String} {h0 : HL} {hs : List HL}
    (tags : List STag) (ha : a ≠ "") (hsty : h0.style = thStyle mp (some a))
    (hmem : h0 ∈ hs) :
    ∃ r, highlightTags hs tags = some r ∧ strHas a r ∧ r ≠ "" :=
  highlightTags_from tags ha hsty hs none hmem
lemma wok_flush_classes {f0 T0 : Nat} {GC : String → Prop} {b : Builder} {p : Nat}
    (hb : WOk f0 T0 GC b) : ∀ s ∈ (flushB b p).out, GC s.cls := by
  obtain ⟨hout, hbc⟩ := hb
  intro s hsm
  unfold flushB at hsm
  by_cases h : b.bAt < p ∧ b.bCls ≠ ""
  · rw [if_pos h] at hsm
    simp only at hsm
    rcases List.mem_append.mp hsm with h1 | h1
    · exact (spansTo_bounds hout s h1).2.2.2.2
    · have := List.mem_singleton.mp h1
      subst this
      rcases hbc with h2 | h2
      · exact absurd h2 h.2
      · exact h2
  · rw [if_neg h] at hsm
    exact (spansTo_bounds hout s hsm).2.2.2.2

/-- C10: a `tagHighlighter` built with the `all` option returns the `all`
class even for an empty tag sequence (in particular for nodes with no
matching rule, for which the walker substitutes `Rule.empty`), and during
`highlightTree` with such a highlighter in the (unscoped) set, every emitted
range's class string contains the `all` class. -/
theorem tagHighlighter_all (mp : List (TagKey × String)) (a : String) (t : STree)
    (hs : List HL) (f T : Nat) (ha : a ≠ "")
    (hmem : HL.mk (thStyle mp (some a)) none ∈ hs) :
    thStyle mp (some a) [] = some a ∧
    ∀ s ∈ highlightTreeOut t hs f T, strHas a s.cls := by
  refine ⟨rfl, ?_⟩
  have W : WalkerHyp (max f T) (strHas a)
      (fun l => HL.mk (thStyle mp (some a)) none ∈ l) := by
    refine ⟨?_, ?_, ?_⟩
    · exact fun i c hc => strHas_addCls hc
    · intro hs' tags v hmem' hht hv
      obtain ⟨r, hr, hhas, _⟩ :=
        @highlightTags_all mp a (HL.mk (thStyle mp (some a)) none) hs' tags ha rfl hmem'
      rw [hht] at hr
      injection hr with hr
      exact hr ▸ hhas
    · intro hs' ty hmem'
      unfold scopeFilter
      exact List.mem_filter.mpr ⟨hmem', rfl⟩
  have hb0 : WOk f (max f T) (strHas a) ⟨f, "", []⟩ := ⟨Nat.le_refl f, Or.inl rfl⟩
  have hw := hlRange_wok f (max f T) (strHas a)
    (fun l => HL.mk (thStyle mp (some a)) none ∈ l) W t f T [] "" hs hs
    ⟨f, "", []⟩ (le_max_left f T) (le_max_right f T) (Or.inl rfl) hmem hmem hb0
  intro s hsm
  exact wok_flush_classes hw s hsm

def c10Key : TagKey := ⟨4, []⟩

def c10Map : List (TagKey × String) := buildMap [([c10Key], "N")]

def c10Tree : STree := .mk ⟨"Doc", false, []⟩ 0 6 [.mk ⟨"W", false, []⟩ 1 4 [] none] none

/-- Witness for C10 with a one-highlighter set carrying `all = "all"` over a
tree whose nodes have no rules. -/
theorem tagHighlighter_all_witness :
    ("all" : String) ≠ "" ∧
    HL.mk (thStyle c10Map (some "all")) none ∈ [HL.mk (thStyle c10Map (some "all")) none] ∧
    (thStyle c10Map (some "all") [] = some "all" ∧
      ∀ s ∈ highlightTreeOut c10Tree [HL.mk (thStyle c10Map (some "all")) none] 0 6,
        strHas "all" s.cls) :=
  ⟨by decide, List.mem_singleton_self _,
    tagHighlighter_all c10Map "all" c10Tree _ 0 6 (by decide) (List.mem_singleton_self _)⟩
/-! ## highlightCode -/

/-- An output event of `highlightCode`: a `putText(text, classes)` call or a
`putBreak()` call. -/
inductive Ev where
  | text (s : List Char) (cls : String)
  | brk
deriving DecidableEq, Repr

/-- The slice `code.slice(a, b)` on the modelled character sequence. -/
def slc (code : List Char) (a b : Nat) : List Char := (code.drop a).take (b - a)

/-- The splitting loop of `writeTo`: scan for `"\n"`, emit the non-empty
piece before it, emit one `putBreak` per newline, and continue after it. -/
def writeLoop (cls : String) (text : List Char) : List Ev :=
  let piece := text.takeWhile (fun c => c ≠ '\n')
  let rest := text.dropWhile (fun c => c ≠ '\n')
  (if piece = [] then [] else [.text piece cls]) ++
    (if rest = [] then [] else .brk :: writeLoop cls rest.tail)
termination_by text.length
decreasing_by
  have h1 : (text.dropWhile (fun c => c ≠ '\n')).length ≤ text.length :=
    (List.dropWhile_sublist _).length_le
  have h2 : 0 < (text.dropWhile (fun c => c ≠ '\n')).length :=
    List.length_pos.mpr (by assumption)
  rw [List.length_tail]
  omega

/-- Model of `writeTo(p, classes)`: ignore non-advancing writes, otherwise split the
slice from the current position and advance it. -/
def wrTo (code : List Char) (st : Nat × List Ev) (p : Nat) (cls : String) : Nat × List Ev :=
  if p ≤ st.1 then st else (p, st.2 ++ writeLoop cls (slc code st.1 p))

/-- Model of `highlightCode(code, tree, highlighter, putText, putBreak, from, to)`:
for each styled range emitted by `highlightTree`, write the preceding gap
with the empty class and the range with its class; finally write the
trailing gap. -/
def highlightCodeEv (code : List Char) (t : STree) (hs : List HL) (f T : Nat) : List Ev :=
  (wrTo code
    ((highlightTreeOut t hs f T).foldl
      (fun st sp => wrTo code (wrTo code st sp.lo "") sp.hi sp.cls) (f, []))
    T "").2

/-- The position reached after consuming a span list. -/
def endPos (p : Nat) : List Span → Nat
  | [] => p
  | sp :: rest => endPos sp.hi rest

/-- Reference rendering of a span list over `[p, …)`: gaps split with the
empty class, spans split with their own class. -/
def renderBody (code : List Char) (p : Nat) : List Span → List Ev
  | [] => []
  | sp :: rest =>
    writeLoop "" (slc code p sp.lo) ++ writeLoop sp.cls (slc code sp.lo sp.hi) ++
      renderBody code sp.hi rest

/-- Reference rendering of a whole `highlightCode` run: the spans
interleaved with their gaps, then the trailing gap up to `T`. -/
def renderAll (code : List Char) (f T : Nat) (spans : List Span) : List Ev :=
  renderBody code f spans ++ writeLoop "" (slc code (endPos f spans) T)

/-- Concatenation of all emitted text with one `'\n'` per break. -/
def evFlat : List Ev → List Char
  | [] => []
  | .text s _ :: rest => s ++ evFlat rest
  | .brk :: rest => '\n' :: evFlat rest
lemma evFlat_append (l1 l2 : List Ev) : evFlat (l1 ++ l2) = evFlat l1 ++ evFlat l2 := by
  induction l1 with
  | nil => simp [evFlat]
  | cons e rest ih =>
    rcases e with ⟨s, c⟩ | _
    · simp [evFlat, ih]
    · simp [evFlat, ih]

lemma dropWhile_head_nl {text : List Char} (h : text.dropWhile (fun c => c ≠ '\n') ≠ []) :
    (text.dropWhile (fun c => c ≠ '\n')).head h = '\n' := by
  have := List.head_dropWhile_not (fun c : Char => c ≠ '\n') text h
  simpa using this

lemma writeLoop_eq (cls : String) (text : List Char) :
    writeLoop cls text =
      (if text.takeWhile (fun c => c ≠ '\n') = [] then []
       else [.text (text.takeWhile (fun c => c ≠ '\n')) cls]) ++
      (if text.dropWhile (fun c => c ≠ '\n') = [] then []
       else .brk :: writeLoop cls (text.dropWhile (fun c => c ≠ '\n')).tail) := by
  rw [writeLoop]

lemma writeLoop_flat (cls : String) (text : List Char) :
    evFlat (writeLoop cls text) = text := by
  suffices key : ∀ (n : Nat) (text : List Char), text.length ≤ n →
      evFlat (writeLoop cls text) = text from key text.length text (Nat.le_refl _)
  intro n
  induction n with
  | zero =>
    intro text h
    have ht : text = [] := List.eq_nil_of_length_eq_zero (by omega)
    subst ht
    rw [writeLoop_eq]
    simp [evFlat]
  | succ n ih =>
    intro text hlen
    rw [writeLoop_eq]
    by_cases hdw : text.dropWhile (fun c => c ≠ '\n') = []
    · rw [if_pos hdw]
      by_cases htw : text.takeWhile (fun c => c ≠ '\n') = []
      · rw [if_pos htw]
        have := List.takeWhile_append_dropWhile (p := fun c : Char => c ≠ '\n') (l := text)
        rw [htw, hdw] at this
        simp [evFlat, ← this]
      · rw [if_neg htw]
        have htd := List.takeWhile_append_dropWhile (p := fun c : Char => c ≠ '\n') (l := text)
        rw [hdw] at htd
        simp only [List.append_nil] at htd
        simp only [List.append_nil, evFlat]
        exact htd
    · rw [if_neg hdw]
      have hhd := dropWhile_head_nl hdw
      have hcons : '\n' :: (text.dropWhile (fun c => c ≠ '\n')).tail =
          text.dropWhile (fun c => c ≠ '\n') := by
        conv_rhs => rw [← List.head_cons_tail _ hdw]
        rw [hhd]
      have hlen2 : (text.dropWhile (fun c => c ≠ '\n')).tail.length ≤ n := by
        have h1 : (text.dropWhile (fun c => c ≠ '\n')).length ≤ text.length :=
          (List.dropWhile_sublist _).length_le
        have h2 : 0 < (text.dropWhile (fun c => c ≠ '\n')).length :=
          List.length_pos.mpr hdw
        rw [List.length_tail]
        omega
      have hih := ih _ hlen2
      have htd := List.takeWhile_append_dropWhile (p := fun c : Char => c ≠ '\n') (l := text)
      by_cases htw : text.takeWhile (fun c => c ≠ '\n') = []
      · rw [if_pos htw]
        rw [htw] at htd
        simp only [List.nil_append] at htd
        simp only [List.nil_append, evFlat, hih]
        rw [hcons, htd]
      · rw [if_neg htw]
        rw [evFlat_append]
        simp only [evFlat, hih, List.append_nil]
        rw [hcons]
        exact htd
lemma writeLoop_events (cls : String) (text : List Char) :
    ∀ s c', Ev.text s c' ∈ writeLoop cls text → ('\n' ∉ s ∧ c' = cls) := by
  suffices key : ∀ (n : Nat) (text : List Char), text.length ≤ n →
      ∀ s c', Ev.text s c' ∈ writeLoop cls text → ('\n' ∉ s ∧ c' = cls) from
    fun s c' => key text.length text (Nat.le_refl _) s c'
  intro n
  induction n with
  | zero =>
    intro text hl s c' hmem
    have ht : text = [] := List.eq_nil_of_length_eq_zero (by omega)
    subst ht
    rw [writeLoop_eq] at hmem
    simp at hmem
  | succ n ih =>
    intro text hlen s c' hmem
    rw [writeLoop_eq] at hmem
    rcases List.mem_append.mp hmem with h1 | h1
    · by_cases htw : text.takeWhile (fun c => c ≠ '\n') = []
      · rw [if_pos htw] at h1
        exact absurd h1 (List.not_mem_nil _)
      · rw [if_neg htw] at h1
        have h2 := List.mem_singleton.mp h1
        injection h2 with h3 h4
        subst h3
        subst h4
        refine ⟨?_, rfl⟩
        intro hmem2
        have := List.mem_takeWhile_imp hmem2
        simp at this
    · by_cases hdw : text.dropWhile (fun c => c ≠ '\n') = []
      · rw [if_pos hdw] at h1
        exact absurd h1 (List.not_mem_nil _)
      · rw [if_neg hdw] at h1
        rcases List.mem_cons.mp h1 with h2 | h2
        · exact absurd h2 (by simp)
        · have hlen2 : (text.dropWhile (fun c => c ≠ '\n')).tail.length ≤ n := by
            have ha : (text.dropWhile (fun c => c ≠ '\n')).length ≤ text.length :=
              (List.dropWhile_sublist _).length_le
            have hb : 0 < (text.dropWhile (fun c => c ≠ '\n')).length :=
              List.length_pos.mpr hdw
            rw [List.length_tail]
            omega
          exact ih _ hlen2 s c' h2

lemma evFlat_count (evs : List Ev) (h : ∀ s c', Ev.text s c' ∈ evs → '\n' ∉ s) :
    (evFlat evs).count '\n' = evs.count .brk := by
  induction evs with
  | nil => simp [evFlat]
  | cons e rest ih =>
    have hrest := ih (fun s c' hm => h s c' (List.mem_cons_of_mem e hm))
    rcases e with ⟨s, c⟩ | _
    · have hs : s.count '\n' = 0 :=
        List.count_eq_zero.mpr (h s c (List.mem_cons_self _ _))
      simp [evFlat, List.count_append, List.count_cons, hs, hrest]
    · simp [evFlat, List.count_cons, hrest]

lemma endPos_ge {T : Nat} {GC : String → Prop} :
    ∀ {spans : List Span} {p q : Nat}, SpansTo T GC p q spans → p ≤ endPos p spans := by
  intro spans
  induction spans with
  | nil => intro p q _; exact Nat.le_refl p
  | cons sp rest ih =>
    intro p q h
    obtain ⟨h1, h2, h3, _, _, h6⟩ := h
    have := ih h6
    simp only [endPos]
    omega

lemma endPos_le {T : Nat} {GC : String → Prop} :
    ∀ {spans : List Span} {p q : Nat}, SpansTo T GC p q spans → p ≤ T →
      endPos p spans ≤ T := by
  intro spans
  induction spans with
  | nil => intro p q _ h; exact h
  | cons sp rest ih =>
    intro p q h hp
    obtain ⟨h1, h2, h3, _, _, h6⟩ := h
    exact ih h6 h3

lemma slc_append (code : List Char) {a b c : Nat} (h1 : a ≤ b) (h2 : b ≤ c) :
    slc code a b ++ slc code b c = slc code a c := by
  unfold slc
  rw [show c - a = (b - a) + (c - b) by omega, List.take_add]
  have hd : (code.drop a).drop (b - a) = code.drop b := by
    rw [List.drop_drop]
    congr 1
    omega
  rw [hd]

lemma renderBody_flat (code : List Char) {T : Nat} {GC : String → Prop} :
    ∀ (spans : List Span) (p q : Nat), SpansTo T GC p q spans →
      evFlat (renderBody code p spans) = slc code p (endPos p spans) := by
  intro spans
  induction spans with
  | nil =>
    intro p q _
    simp [renderBody, endPos, slc, evFlat]
  | cons sp rest ih =>
    intro p q h
    obtain ⟨h1, h2, h3, _, _, h6⟩ := h
    have hge := endPos_ge h6
    simp only [renderBody, endPos, evFlat_append]
    rw [writeLoop_flat, writeLoop_flat, ih _ _ h6]
    rw [List.append_assoc, slc_append code (Nat.le_of_lt h2) hge]
    exact slc_append code h1 ((Nat.le_of_lt h2).trans hge)
lemma wrTo_adv (code : List Char) {p lo : Nat} (evs : List Ev) (cls : String)
    (h : p ≤ lo) :
    wrTo code (p, evs) lo cls = (lo, evs ++ writeLoop cls (slc code p lo)) := by
  unfold wrTo
  by_cases hle : lo ≤ p
  · have hpl : lo = p := Nat.le_antisymm hle h
    subst hpl
    rw [if_pos (Nat.le_refl lo)]
    have hslc : slc code lo lo = [] := by simp [slc]
    rw [hslc, writeLoop_eq]
    simp
  · rw [if_neg hle]

lemma wr_fold (code : List Char) {T : Nat} {GC : String → Prop} :
    ∀ (spans : List Span) (p q : Nat) (evs : List Ev), SpansTo T GC p q spans →
    spans.foldl (fun st sp => wrTo code (wrTo code st sp.lo "") sp.hi sp.cls) (p, evs) =
      (endPos p spans, evs ++ renderBody code p spans) := by
  intro spans
  induction spans with
  | nil =>
    intro p q evs _
    simp [renderBody, endPos]
  | cons sp rest ih =>
    intro p q evs h
    obtain ⟨h1, h2, h3, _, _, h6⟩ := h
    simp only [List.foldl_cons]
    rw [wrTo_adv code evs "" h1, wrTo_adv code _ sp.cls (Nat.le_of_lt h2)]
    rw [ih sp.hi q _ h6]
    simp [renderBody, endPos, List.append_assoc]

lemma renderBody_events (code : List Char) :
    ∀ (spans : List Span) (p : Nat) (s : List Char) (c' : String),
      Ev.text s c' ∈ renderBody code p spans → '\n' ∉ s := by
  intro spans
  induction spans with
  | nil =>
    intro p s c' hm
    simp [renderBody] at hm
  | cons sp rest ih =>
    intro p s c' hm
    simp only [renderBody] at hm
    rcases List.mem_append.mp hm with hm1 | hm1
    · rcases List.mem_append.mp hm1 with hm2 | hm2
      · exact (writeLoop_events "" _ s c' hm2).1
      · exact (writeLoop_events sp.cls _ s c' hm2).1
    · exact ih sp.hi s c' hm1

/-- C8: `highlightCode` over `[from, to)` decomposes into the styled ranges
interleaved with their gaps — gap text is written with the class `""` and
each range with its own class; the concatenation of all emitted text, with
one line-break character per `putBreak`, equals the source slice
`[from, to)`; no `putText` string contains a newline; and the number of
`putBreak` calls equals the number of newlines emitted. -/
theorem highlightCode_spec (code : List Char) (t : STree) (hs : List HL) (f T : Nat)
    (hfT : f ≤ T) :
    highlightCodeEv code t hs f T = renderAll code f T (highlightTreeOut t hs f T) ∧
    evFlat (highlightCodeEv code t hs f T) = slc code f T ∧
    (∀ s c', Ev.text s c' ∈ highlightCodeEv code t hs f T → '\n' ∉ s) ∧
    (slc code f T).count '\n' = (highlightCodeEv code t hs f T).count .brk := by
  have hb0 : WOk f T (fun _ => True) ⟨f, "", []⟩ := ⟨Nat.le_refl f, Or.inl rfl⟩
  have hw := hlRange_wok f T (fun _ => True) (fun _ => True) (trivialWalkerHyp T)
    t f T [] "" hs hs ⟨f, "", []⟩ hfT (Nat.le_refl T) (Or.inl rfl) trivial trivial hb0
  obtain ⟨q, hq⟩ := wok_final hw
  have hq' : SpansTo T (fun _ => True) f q (highlightTreeOut t hs f T) := hq
  have hge := endPos_ge hq'
  have hle := endPos_le hq' hfT
  have h1 : highlightCodeEv code t hs f T = renderAll code f T (highlightTreeOut t hs f T) := by
    unfold highlightCodeEv renderAll
    rw [wr_fold code (highlightTreeOut t hs f T) f q [] hq']
    by_cases he : T ≤ endPos f (highlightTreeOut t hs f T)
    · have heq : endPos f (highlightTreeOut t hs f T) = T := Nat.le_antisymm hle he
      unfold wrTo
      rw [if_pos he]
      have hslc : slc code (endPos f (highlightTreeOut t hs f T)) T = [] := by
        rw [heq]
        simp [slc]
      rw [hslc, writeLoop_eq]
      simp
    · unfold wrTo
      rw [if_neg he]
      simp
  have hevs : ∀ s c', Ev.text s c' ∈ highlightCodeEv code t hs f T → '\n' ∉ s := by
    intro s c' hm
    rw [h1] at hm
    unfold renderAll at hm
    rcases List.mem_append.mp hm with hm1 | hm1
    · exact renderBody_events code _ f s c' hm1
    · exact (writeLoop_events "" _ s c' hm1).1
  have hflat : evFlat (highlightCodeEv code t hs f T) = slc code f T := by
    rw [h1]
    unfold renderAll
    rw [evFlat_append, renderBody_flat code _ f q hq', writeLoop_flat]
    exact slc_append code hge hle
  refine ⟨h1, hflat, hevs, ?_⟩
  rw [← hflat]
  exact evFlat_count _ hevs
def c8Code : List Char := ['a', 'b', '\n', 'c', 'd']

def c8Key : TagKey := ⟨9, []⟩

def c8Ty : NType := ⟨"W", false, [⟨[⟨c8Key, [c8Key]⟩], .norm, none⟩]⟩

def c8HL : HL := ⟨thStyle (buildMap [([c8Key], "S")]) none, none⟩

def c8Tree : STree := .mk ⟨"Doc", false, []⟩ 0 5 [.mk c8Ty 3 5 [] none] none

/-- Witness for C8 on the source `"ab\ncd"` with a styled range `[3,5)`. -/
theorem highlightCode_spec_witness :
    (0 : Nat) ≤ 5 ∧
    (highlightCodeEv c8Code c8Tree [c8HL] 0 5 =
        renderAll c8Code 0 5 (highlightTreeOut c8Tree [c8HL] 0 5) ∧
      evFlat (highlightCodeEv c8Code c8Tree [c8HL] 0 5) = slc c8Code 0 5 ∧
      (∀ s c', Ev.text s c' ∈ highlightCodeEv c8Code c8Tree [c8HL] 0 5 → '\n' ∉ s) ∧
      (slc c8Code 0 5).count '\n' = (highlightCodeEv c8Code c8Tree [c8HL] 0 5).count .brk) :=
  ⟨by decide, highlightCode_spec c8Code c8Tree [c8HL] 0 5 (by decide)⟩
def c7Key : TagKey := ⟨3, []⟩

def c7Tag : STag := ⟨c7Key, [c7Key]⟩

def c7Ty : NType := ⟨"Host", false, [⟨[c7Tag], .inh, none⟩]⟩

def c7HL : HL := ⟨thStyle (buildMap [([c7Key], "K")]) none, none⟩

def c7Inner : STree := .mk ⟨"ITop", true, []⟩ 2 6 [] none

def c7Inner2 : STree := .mk ⟨"Other", true, []⟩ 2 6 [] none

def c7Child : STree := .mk ⟨"C", false, []⟩ 1 4 [] none

/-- Witness for C7 at a concrete Inherit-ruled host with a mounted inner
tree. -/
theorem hlRange_mount_witness :
    (¬ ((10 : Nat) ≤ 0 ∨ (10 : Nat) ≤ 0)) ∧
    ((getStyleTags c7Ty.rules []).getD emptyRule).mode ≠ Mode.opq ∧
    ((2 : Nat) + 0 ≤ 10) ∧ ((0 : Nat) < 6 + 0) ∧
    hlRange (.mk c7Ty 0 10 [c7Child] (some (none, c7Inner))) 0 10 [] "" [c7HL] [c7HL]
        ⟨0, "", []⟩ =
      hlRange (.mk c7Ty 0 10 [c7Child] (some (none, c7Inner2))) 0 10 [] "" [c7HL] [c7HL]
        ⟨0, "", []⟩ ∧
    hlRange (.mk c7Ty 0 10 [] (some (some [(2, 6)], c7Inner))) 0 10 [] "" [c7HL] [c7HL]
        ⟨0, "", []⟩ =
      startSpan
        (hlRange c7Inner (max 0 (2 + 0)) (min 10 (6 + 0)) [] ""
          (scopeFilter [c7HL] c7Inner.ty) [c7HL]
          (startSpan ⟨0, "", []⟩ (max 0 0)
            (nodeCls (if c7Ty.isTop then scopeFilter [c7HL] c7Ty else [c7HL])
              ((getStyleTags c7Ty.rules []).getD emptyRule) "")))
        (min 10 (6 + 0))
        (nodeCls (if c7Ty.isTop then scopeFilter [c7HL] c7Ty else [c7HL])
          ((getStyleTags c7Ty.rules []).getD emptyRule) "") :=
  ⟨by decide, by decide, by decide, by decide,
    (hlRange_mount c7Ty 0 10 [c7Child] c7Inner c7Inner2 (2, 6) 0 10 [] "" [c7HL] [c7HL]
      ⟨0, "", []⟩ (by decide) (by decide)).2.1,
    (hlRange_mount c7Ty 0 10 [] c7Inner c7Inner2 (2, 6) 0 10 [] "" [c7HL] [c7HL]
      ⟨0, "", []⟩ (by decide) (by decide)).2.2 (by decide) (by decide)⟩
